import Mathlib

/-!
Verification of the trace-cutting engine (`Cutter` in `src/main.rs`).

The input trace is modelled as a list of bytes (`List Nat`, each entry a
byte value).  The engine state mirrors the Rust `Cutter` struct: a cursor
position into the input, the bytes written so far (as a list of chunks,
one chunk per record written), the `index_to_offset` map and the
`written_indexes` set.  Machine integers are modelled as `Nat`; the
unsigned subtractions performed by the Rust code are modelled as checked
subtractions that abort the run (matching the overflow panic of a debug
build).  Fallible operations return `Except CutError`.

The record header codec and the event payload codec live in the external
`ftfrs` crate, which is out of scope for the repository; those parts are
modelled from the spec (each such definition carries a doc comment saying
so).  Everything else is translated directly from `src/main.rs`.
-/

/-- Assemble a little-endian machine word from a list of bytes. -/
def wordOfBytes : List Nat → Nat
  | [] => 0
  | b :: rest => b % 256 + 256 * wordOfBytes rest

/-- The eight little-endian bytes of a 64-bit word. -/
def bytesOfWord (w : Nat) : List Nat :=
  [w % 256, w / 2 ^ 8 % 256, w / 2 ^ 16 % 256, w / 2 ^ 24 % 256,
   w / 2 ^ 32 % 256, w / 2 ^ 40 % 256, w / 2 ^ 48 % 256, w / 2 ^ 56 % 256]

/-- The 64-bit word stored at byte offset `pos` of the input. -/
def wordAt (input : List Nat) (pos : Nat) : Nat :=
  wordOfBytes ((input.drop pos).take 8)

/-- The leading header word of a chunk of bytes. -/
def chunkWord (c : List Nat) : Nat :=
  wordOfBytes (c.take 8)

/-- Modelled from the spec: the size field of a record header (`ftfrs`
`RecordHeader::size`), in 8-byte words, stored in bits 4..16 of the
header word. -/
def headerSize (w : Nat) : Nat := w / 16 % 4096

/-- Modelled from the spec: the 16-bit string index embedded in a String
record header (`ftfrs` `StringRecord::index_from_header`), bits 16..32. -/
def index_from_header (w : Nat) : Nat := w / 2 ^ 16 % 2 ^ 16

/-- Record types distinguished by the `ftfrs` header codec. -/
inductive RecordType where
  | metadata
  | initialization
  | string
  | thread
  | event
  | blob
  | userspace
  | kernel
  | scheduling
  | log
  deriving DecidableEq

/-- Errors aborting a run, mirroring the `anyhow` errors and I/O errors of
the Rust code.  `arithUnderflow` models the overflow panic of an unsigned
subtraction; `outOfFuel` is the artificial bound of the loop model and is
proved unreachable. -/
inductive CutError where
  | unexpectedEof
  | unknownRecordType (tag : Nat)
  | eventDecode
  | missingStringIndex (idx : Nat)
  | arithUnderflow
  | outOfFuel
  deriving DecidableEq

/-- Modelled from the spec: `ftfrs` `RecordHeader::record_type`, decoding
the type tag in bits 0..4 of the header word; an unrecognized tag is a
fatal format error. -/
def record_type (w : Nat) : Except CutError RecordType :=
  if w % 16 = 0 then .ok .metadata
  else if w % 16 = 1 then .ok .initialization
  else if w % 16 = 2 then .ok .string
  else if w % 16 = 3 then .ok .thread
  else if w % 16 = 4 then .ok .event
  else if w % 16 = 5 then .ok .blob
  else if w % 16 = 6 then .ok .userspace
  else if w % 16 = 7 then .ok .kernel
  else if w % 16 = 8 then .ok .scheduling
  else if w % 16 = 9 then .ok .log
  else .error (.unknownRecordType (w % 16))

/-- Modelled from the spec: a string reference is either literal inline
text (here only its length is kept) or a 16-bit index into a previously
defined String record (`ftfrs` `StringRef`). -/
inductive StrRef where
  | empty
  | refIdx (idx : Nat)
  | inline (len : Nat)
  deriving DecidableEq

/-- Modelled from the spec: an event argument carries a name reference
and, for string-valued arguments only, a value reference. -/
structure Argument where
  name : StrRef
  value : Option StrRef
  deriving DecidableEq

/-- Modelled from the spec: the decoded event data used by the engine — a
64-bit timestamp, name and category string references and the argument
list (`ftfrs` `Event`). -/
structure Event where
  timestamp : Nat
  name : StrRef
  category : StrRef
  arguments : List Argument
  deriving DecidableEq

/-- Modelled from the spec: a decoded Event record is one of the five
recognized timestamped subtypes or some other subtype; every subtype
carries the common event data (`ftfrs` `EventRecord`). -/
inductive EventRecord where
  | durationBegin (e : Event)
  | durationEnd (e : Event)
  | durationComplete (e : Event)
  | counter (e : Event)
  | instant (e : Event)
  | other (e : Event)
  deriving DecidableEq

/-- The common event data of a decoded Event record. -/
def EventRecord.eventOf : EventRecord → Event
  | .durationBegin e => e
  | .durationEnd e => e
  | .durationComplete e => e
  | .counter e => e
  | .instant e => e
  | .other e => e

/-- Whether the subtype is one of the five with a timestamp-based filter. -/
def EventRecord.isRecognized : EventRecord → Bool
  | .other _ => false
  | _ => true

/-- The indexed references of a string reference (none for inline/empty). -/
def StrRef.refIdxList : StrRef → List Nat
  | .refIdx i => [i]
  | _ => []

/-- The indexed reference of an argument value, if any: only a
string-valued argument whose value is indexed contributes. -/
def valRefList (v : Option StrRef) : List Nat :=
  match v with
  | some (.refIdx i) => [i]
  | _ => []

/-- The indexed references of one argument: its name and, for a
string-valued argument, its value. -/
def argRefIdxs (a : Argument) : List Nat :=
  a.name.refIdxList ++ valRefList a.value

/-- All indexed string references of an event, in the order the engine
examines them: name, category, then each argument. -/
def Event.refIdxs (e : Event) : List Nat :=
  e.name.refIdxList ++ e.category.refIdxList ++ (e.arguments.map argRefIdxs).flatten

/-- Modelled from the spec: decoding of a 16-bit string-reference field —
zero is the empty reference, values below `2 ^ 15` are indices, values
with the top bit set are inline with the length in the low 15 bits. -/
def decodeStrField (f : Nat) : StrRef :=
  if f = 0 then .empty
  else if f < 2 ^ 15 then .refIdx f
  else .inline (f % 2 ^ 15)

/-- Number of 8-byte words occupied by an inline payload of `len` bytes. -/
def padWords (len : Nat) : Nat := (len + 7) / 8

/-- Modelled from the spec: decoding of `n` argument records from the
words of an event payload; each argument has a header word with its size
in words, its name reference, and for string arguments a value
reference. -/
def decodeArgs : Nat → List Nat → Option (List Argument)
  | 0, _ => some []
  | n + 1, ws =>
    match ws with
    | [] => none
    | w :: _ =>
      let asz := headerSize w
      if asz = 0 ∨ ws.length < asz then none
      else
        let nref := decodeStrField (w / 2 ^ 16 % 2 ^ 16)
        let vref : Option StrRef :=
          if w % 16 = 6 then some (decodeStrField (w / 2 ^ 32 % 2 ^ 16)) else none
        match decodeArgs n (ws.drop asz) with
        | none => none
        | some rest => some (⟨nref, vref⟩ :: rest)

/-- Modelled from the spec: the external codec's decoding of a full Event
record from its words (`ftfrs` `Record::from_bytes` for an Event-tagged
record).  The header word carries the subtype, argument count, thread
reference and the name/category reference fields; the second word is the
timestamp; inline payloads are skipped by length.  A record that does not
fit this shape is a fatal decode error. -/
def decodeEventWords (ws : List Nat) : Option EventRecord :=
  match ws with
  | [] => none
  | w0 :: _ =>
    if w0 % 16 = 4 ∧ ws.length = headerSize w0 ∧ 2 ≤ headerSize w0 ∧
        w0 / 2 ^ 16 % 16 ≤ 10 then
      let ts := ws.getD 1 0
      let nargs := w0 / 2 ^ 20 % 16
      let threadref := w0 / 2 ^ 24 % 2 ^ 8
      let catRef := decodeStrField (w0 / 2 ^ 32 % 2 ^ 16)
      let nameRef := decodeStrField (w0 / 2 ^ 48 % 2 ^ 16)
      let body0 := ws.drop 2
      let body1 := if threadref = 0 then body0.drop 2 else body0
      let body2 := match catRef with | .inline len => body1.drop (padWords len) | _ => body1
      let body3 := match nameRef with | .inline len => body2.drop (padWords len) | _ => body2
      match decodeArgs nargs body3 with
      | none => none
      | some args =>
        let e : Event := ⟨ts, nameRef, catRef, args⟩
        some (match w0 / 2 ^ 16 % 16 with
          | 0 => .instant e
          | 1 => .counter e
          | 2 => .durationBegin e
          | 3 => .durationEnd e
          | 4 => .durationComplete e
          | _ => .other e)
    else none

/-- Split a byte list into its complete 8-byte words. -/
def wordsOf (bs : List Nat) : List Nat :=
  (List.range (bs.length / 8)).map fun k => wordOfBytes ((bs.drop (8 * k)).take 8)

/-- The mutable state of the `Cutter`: input cursor, output written so
far (one chunk per record written), the offset index and the emitted
set. -/
@[ext]
structure CutterState where
  pos : Nat
  output : List (List Nat)
  index_to_offset : Nat → Option Nat
  written_indexes : Nat → Bool

/-- Read exactly `n` bytes at `pos`; failing with `UnexpectedEof` when
fewer are available, as `read_exact` does. -/
def readExact (input : List Nat) (pos n : Nat) : Except CutError (List Nat) :=
  if pos + n ≤ input.length then .ok ((input.drop pos).take n)
  else .error .unexpectedEof

/-- `Cutter::maybe_write_str_ref`: if the index is not in
`written_indexes`, look up its offset (absence is a fatal error), seek
back, copy the String record header and payload to the output, and seek
forward again.  The unsigned subtractions `pos - offset` and
`pos - (offset + size * 8)` are checked. -/
def maybe_write_str_ref (input : List Nat) (s : CutterState) (idx : Nat) :
    Except CutError CutterState :=
  if s.written_indexes idx then .ok s
  else
    match s.index_to_offset idx with
    | none => .error (.missingStringIndex idx)
    | some off =>
      if s.pos < off then .error .arithUnderflow
      else
        match readExact input off 8 with
        | .error e => .error e
        | .ok headerBytes =>
          match (if headerSize (wordOfBytes headerBytes) > 1 then
              readExact input (off + 8) ((headerSize (wordOfBytes headerBytes) - 1) * 8)
            else .ok []) with
          | .error e => .error e
          | .ok rest =>
            if s.pos < off + headerSize (wordOfBytes headerBytes) * 8 then
              .error .arithUnderflow
            else
              .ok { s with
                      pos := off + 8 + rest.length +
                        (s.pos - (off + headerSize (wordOfBytes headerBytes) * 8)),
                      output := s.output ++ [headerBytes ++ rest] }

/-- The `if let StringRef::Ref(idx) = r { self.maybe_write_str_ref(*idx)? }`
pattern of `Cutter::process_event`. -/
def write_ref (input : List Nat) (r : StrRef) (s : CutterState) :
    Except CutError CutterState :=
  match r with
  | .refIdx i => maybe_write_str_ref input s i
  | _ => .ok s

/-- The `if let Argument::Str(_, StringRef::Ref(idx)) = arg` pattern of
`Cutter::process_event`, applied to an argument value reference. -/
def write_val_ref (input : List Nat) (v : Option StrRef) (s : CutterState) :
    Except CutError CutterState :=
  match v with
  | some (.refIdx i) => maybe_write_str_ref input s i
  | _ => .ok s

/-- The argument loop of `Cutter::process_event`: for each argument,
backfill its name reference and, for string arguments, its value
reference. -/
def processArgRefs (input : List Nat) : List Argument → CutterState →
    Except CutError CutterState
  | [], s => .ok s
  | a :: rest, s =>
    match write_ref input a.name s with
    | .error e => .error e
    | .ok s1 =>
      match write_val_ref input a.value s1 with
      | .error e => .error e
      | .ok s2 => processArgRefs input rest s2

/-- `Cutter::process_event`: reject the event when its timestamp is
outside `[start_ts, end_ts]`; otherwise backfill the indexed references
of its name, category and arguments, and accept it. -/
def process_event (input : List Nat) (start_ts end_ts : Nat) (e : Event)
    (s : CutterState) : Except CutError (CutterState × Bool) :=
  if e.timestamp < start_ts ∨ end_ts < e.timestamp then .ok (s, false)
  else
    match write_ref input e.name s with
    | .error e => .error e
    | .ok s1 =>
      match write_ref input e.category s1 with
      | .error e => .error e
      | .ok s2 =>
        match processArgRefs input e.arguments s2 with
        | .error e => .error e
        | .ok s3 => .ok (s3, true)

/-- One iteration of the scan loop of `Cutter::cut`.  `ok none` is the
clean break taken when `read_exact` on the 8-byte header fails with
`UnexpectedEof` — which happens whenever fewer than 8 bytes remain, zero
or not.  A String record updates the offset index and is skipped (the
checked `size - 1` aborts on a zero size); an Event record is re-read
from its start, fully decoded and handed to the inclusion logic, with
unrecognized subtypes accepted unconditionally; any other record is
copied through verbatim. -/
def cutStep (input : List Nat) (start_ts end_ts : Nat) (s : CutterState) :
    Except CutError (Option CutterState) :=
  if input.length < s.pos + 8 then .ok none
  else
    let headerBytes := (input.drop s.pos).take 8
    let w := wordOfBytes headerBytes
    match record_type w with
    | .error e => .error e
    | .ok rt =>
      match rt with
      | .string =>
        let idx := index_from_header w
        let s1 := { s with
          index_to_offset := fun j => if j = idx then some s.pos else s.index_to_offset j }
        if headerSize w = 0 then .error .arithUnderflow
        else .ok (some { s1 with pos := s.pos + 8 + (headerSize w - 1) * 8 })
      | .event =>
        match readExact input s.pos (headerSize w * 8) with
        | .error e => .error e
        | .ok recordBytes =>
          match decodeEventWords (wordsOf recordBytes) with
          | none => .error .eventDecode
          | some er =>
            let s1 := { s with pos := s.pos + headerSize w * 8 }
            match (match er with
                   | .durationBegin e => process_event input start_ts end_ts e s1
                   | .durationEnd e => process_event input start_ts end_ts e s1
                   | .durationComplete e => process_event input start_ts end_ts e s1
                   | .counter e => process_event input start_ts end_ts e s1
                   | .instant e => process_event input start_ts end_ts e s1
                   | .other _ => .ok (s1, true)) with
            | .error e => .error e
            | .ok (s2, writeIt) =>
              .ok (some (if writeIt then { s2 with output := s2.output ++ [recordBytes] }
                         else s2))
      | _ =>
        match (if headerSize w > 1 then readExact input (s.pos + 8) ((headerSize w - 1) * 8)
               else .ok []) with
        | .error e => .error e
        | .ok rest =>
          .ok (some { s with
                        pos := s.pos + 8 + rest.length,
                        output := s.output ++ [headerBytes ++ rest] })

/-- The scan loop of `Cutter::cut`, with an explicit fuel bound (proved
unreachable for the bound used by `cut`). -/
def cutLoop (input : List Nat) (start_ts end_ts : Nat) :
    Nat → CutterState → Except CutError (List (List Nat))
  | 0, _ => .error .outOfFuel
  | fuel + 1, s =>
    match cutStep input start_ts end_ts s with
    | .error e => .error e
    | .ok none => .ok s.output
    | .ok (some s') => cutLoop input start_ts end_ts fuel s'

/-- The initial `Cutter` state built by `Cutter::new`. -/
def initState : CutterState :=
  { pos := 0, output := [], index_to_offset := fun _ => none,
    written_indexes := fun _ => false }

/-- `Cutter::cut` run to completion on the whole input, returning the
chunks written to the output. -/
def cut (input : List Nat) (start_ts end_ts : Nat) :
    Except CutError (List (List Nat)) :=
  cutLoop input start_ts end_ts (input.length + 1) initState

/-- How far the scan cursor moves for the record headed by word `w`: its
size in bytes, but at least the 8 header bytes (a size-0 passthrough
record only consumes its header). -/
def advanceOf (w : Nat) : Nat := max (headerSize w * 8) 8

/-- The bytes of the record starting at `pos`, per its header size. -/
def recordBytesAt (input : List Nat) (pos : Nat) : List Nat :=
  (input.drop pos).take (advanceOf (wordAt input pos))

/-- The byte offsets the forward scan visits as record starts: offset 0,
and after each record whose header could be read, the offset advanced by
that record's extent. -/
inductive ScanPos (input : List Nat) : Nat → Prop where
  | zero : ScanPos input 0
  | step {pos : Nat} : ScanPos input pos → pos + 8 ≤ input.length →
      ScanPos input (pos + advanceOf (wordAt input pos))

/-- The record at `pos` is a String record defining index `idx`. -/
def DefinesAt (input : List Nat) (pos idx : Nat) : Prop :=
  pos + 8 ≤ input.length ∧ wordAt input pos % 16 = 2 ∧
    index_from_header (wordAt input pos) = idx

instance (input : List Nat) (pos idx : Nat) : Decidable (DefinesAt input pos idx) := by
  unfold DefinesAt; infer_instance

/-- Some String record scanned strictly before `p` defines index `idx`. -/
def DefinedBefore (input : List Nat) (p idx : Nat) : Prop :=
  ∃ q, ScanPos input q ∧ q < p ∧ DefinesAt input q idx

/-- `off` is the last String record defining `idx` strictly before `p`. -/
def IsLastDefBefore (input : List Nat) (p idx off : Nat) : Prop :=
  ScanPos input off ∧ off < p ∧ DefinesAt input off idx ∧
    ∀ q, ScanPos input q → q < p → DefinesAt input q idx → q ≤ off

/-- The bytes a backfill of the String record at `off` copies to the
output: header plus payload, `size * 8` bytes in all. -/
def backfillBytesAt (input : List Nat) (off : Nat) : List Nat :=
  (input.drop off).take (headerSize (wordAt input off) * 8)

/-- The chunk is a String record chunk carrying index `idx`. -/
def IsStringChunkFor (c : List Nat) (idx : Nat) : Prop :=
  chunkWord c % 16 = 2 ∧ index_from_header (chunkWord c) = idx

instance (c : List Nat) (idx : Nat) : Decidable (IsStringChunkFor c idx) := by
  unfold IsStringChunkFor; infer_instance

/-- The chunk is neither a String record nor an Event record. -/
def isOtherChunk (c : List Nat) : Bool :=
  !(chunkWord c % 16 == 2 || chunkWord c % 16 == 4)

/-- The spec-side decomposition of the byte stream starting at `pos` into
record chunks, following the same header sizes as the scan. -/
def scanRecsAux (input : List Nat) : Nat → Nat → List (List Nat)
  | 0, _ => []
  | fuel + 1, pos =>
    if input.length < pos + 8 then []
    else recordBytesAt input pos ::
      scanRecsAux input fuel (pos + advanceOf (wordAt input pos))

/-- The record chunks of the whole input stream, in scan order. -/
def scanRecords (input : List Nat) : List (List Nat) :=
  scanRecsAux input (input.length + 1) 0

/-- Header word of a String record: tag 2, the size field and the index
field (used to build concrete test inputs). -/
def stringHeaderWord (size idx : Nat) : Nat :=
  2 + 16 * size + 2 ^ 16 * idx

/-- Header word of an Event record: tag 4, with the size, subtype,
argument-count, thread-reference, category and name fields (used to
build concrete test inputs). -/
def eventHeaderWord (size subtype nargs threadref cat name : Nat) : Nat :=
  4 + 16 * size + 2 ^ 16 * subtype + 2 ^ 20 * nargs + 2 ^ 24 * threadref +
    2 ^ 32 * cat + 2 ^ 48 * name


theorem length_drop_take {input : List Nat} {p n : Nat} (h : p + n ≤ input.length) :
    ((input.drop p).take n).length = n := by
  simp [List.length_take, List.length_drop]
  omega

theorem take_of_drop_take {input : List Nat} {p n m : Nat} :
    ((input.drop p).take n).take m = (input.drop p).take (min m n) :=
  List.take_take _ _ _

theorem advanceOf_ge_eight (w : Nat) : 8 ≤ advanceOf w := le_max_right _ _

theorem advanceOf_of_size_pos {w : Nat} (h : 1 ≤ headerSize w) :
    advanceOf w = headerSize w * 8 := by
  unfold advanceOf
  omega

theorem wordsOf_length (bs : List Nat) : (wordsOf bs).length = bs.length / 8 := by
  simp [wordsOf]

theorem wordsOf_head {bs : List Nat} {w0 : Nat} {rest : List Nat}
    (h : wordsOf bs = w0 :: rest) : w0 = wordOfBytes (bs.take 8) := by
  unfold wordsOf at h
  rcases hn : bs.length / 8 with _ | n
  · rw [hn] at h; simp at h
  · rw [hn, List.range_succ_eq_map] at h
    simp at h
    simpa using h.1.symm

theorem chunkWord_eq_wordAt {input : List Nat} {p n : Nat} (h8 : 8 ≤ n) :
    chunkWord ((input.drop p).take n) = wordAt input p := by
  unfold chunkWord wordAt
  rw [take_of_drop_take, min_eq_left h8]

/-- Structural facts extracted from a successful event decode. -/
theorem decodeEventWords_shape {ws : List Nat} {er : EventRecord}
    (h : decodeEventWords ws = some er) :
    ∃ w0 rest, ws = w0 :: rest ∧ w0 % 16 = 4 ∧ ws.length = headerSize w0 ∧
      2 ≤ headerSize w0 := by
  rcases ws with _ | ⟨w0, rest⟩
  · simp [decodeEventWords] at h
  · unfold decodeEventWords at h
    split at h
    · rename_i heq; exact absurd heq (by simp)
    · rename_i b rest2 heq
      injection heq with hb hrest
      subst hb; subst hrest
      split at h
      · rename_i hcond
        exact ⟨w0, rest, rfl, hcond.1, by simpa using hcond.2.1, hcond.2.2.1⟩
      · simp at h

/-- A successful decode of the record at `p` pins down the header word:
the record is Event-tagged, at least two words long, and lies entirely
within the input. -/
theorem decode_at_facts {input : List Nat} {p : Nat} {er : EventRecord}
    (h : decodeEventWords (wordsOf ((input.drop p).take (headerSize (wordAt input p) * 8)))
          = some er) :
    2 ≤ headerSize (wordAt input p) ∧
      p + headerSize (wordAt input p) * 8 ≤ input.length ∧
      wordAt input p % 16 = 4 := by
  obtain ⟨w0, rest, hws, htag, hlen, hsz⟩ := decodeEventWords_shape h
  set k := headerSize (wordAt input p) with hk
  set bs := (input.drop p).take (k * 8) with hbs
  have hbslen : bs.length = min (k * 8) (input.length - p) := by
    simp [hbs, List.length_take, List.length_drop]
  have hwlen : (wordsOf bs).length = bs.length / 8 := wordsOf_length bs
  have hbs8 : 8 ≤ bs.length := by
    have hpos : 0 < (wordsOf bs).length := by rw [hws]; simp
    omega
  have hk8 : 8 ≤ k * 8 := by omega
  have hw0 : w0 = wordAt input p := by
    have h1 := wordsOf_head hws
    rw [hbs, take_of_drop_take, min_eq_left hk8] at h1
    exact h1
  have hszk : headerSize w0 = k := by rw [hw0]
  have hdiv : bs.length / 8 = k := by
    rw [← hwlen, hlen, hszk]
  have hfull : k * 8 ≤ input.length - p := by
    by_contra hcon
    push_neg at hcon
    have hmin : bs.length = input.length - p := by omega
    rw [hmin] at hdiv
    have : (input.length - p) / 8 < k := by
      rw [Nat.div_lt_iff_lt_mul (by norm_num : 0 < 8)]
      omega
    omega
  exact ⟨hszk ▸ hsz, by omega, hw0 ▸ htag⟩

theorem readExact_ok {input : List Nat} {p n : Nat} {bs : List Nat}
    (h : readExact input p n = .ok bs) :
    p + n ≤ input.length ∧ bs = (input.drop p).take n := by
  unfold readExact at h
  split at h
  · rename_i hle
    injection h with h
    exact ⟨hle, h.symm⟩
  · simp at h

theorem readExact_ok_of {input : List Nat} {p n : Nat} (h : p + n ≤ input.length) :
    readExact input p n = .ok ((input.drop p).take n) := by
  unfold readExact
  rw [if_pos h]

/-- Exhaustive description of a successful `maybe_write_str_ref` call:
either the index was already in the emitted set and nothing happens, or
the cached record is copied; a cached size-0 header leaves the cursor 8
bytes past where it started. -/
theorem maybe_write_ok_cases {input : List Nat} {s : CutterState} {idx : Nat}
    {s' : CutterState} (h : maybe_write_str_ref input s idx = .ok s') :
    (s.written_indexes idx = true ∧ s' = s) ∨
    (s.written_indexes idx = false ∧ ∃ off,
      s.index_to_offset idx = some off ∧
      off + 8 ≤ input.length ∧
      off + headerSize (wordAt input off) * 8 ≤ s.pos ∧
      ((1 ≤ headerSize (wordAt input off) ∧
          off + headerSize (wordAt input off) * 8 ≤ input.length ∧
          s' = { s with output := s.output ++ [backfillBytesAt input off] }) ∨
       (headerSize (wordAt input off) = 0 ∧
          s' = { s with pos := s.pos + 8,
                        output := s.output ++ [(input.drop off).take 8] }))) := by
  unfold maybe_write_str_ref at h
  by_cases hw : s.written_indexes idx = true
  · rw [if_pos hw] at h
    left
    refine ⟨hw, ?_⟩
    injection h with h
    exact h.symm
  · rw [if_neg hw] at h
    right
    refine ⟨by simpa using hw, ?_⟩
    rcases hoff : s.index_to_offset idx with _ | off
    · rw [hoff] at h; simp at h
    · rw [hoff] at h
      dsimp only at h
      refine ⟨off, rfl, ?_⟩
      by_cases hpo : s.pos < off
      · rw [if_pos hpo] at h; simp at h
      · rw [if_neg hpo] at h
        rcases hhb : readExact input off 8 with e | headerBytes
        · rw [hhb] at h; simp at h
        · rw [hhb] at h
          dsimp only at h
          obtain ⟨hoff8, hhbv⟩ := readExact_ok hhb
          have hwad : wordOfBytes headerBytes = wordAt input off := by
            rw [hhbv]; rfl
          rw [hwad] at h
          rcases hrest : (if headerSize (wordAt input off) > 1 then
              readExact input (off + 8) ((headerSize (wordAt input off) - 1) * 8)
            else .ok ([] : List Nat)) with e | rest
          · rw [hrest] at h; simp at h
          · rw [hrest] at h
            dsimp only at h
            by_cases hguard : s.pos < off + headerSize (wordAt input off) * 8
            · rw [if_pos hguard] at h; simp at h
            · rw [if_neg hguard] at h
              push_neg at hguard
              injection h with h
              subst h
              refine ⟨hoff8, hguard, ?_⟩
              set sz := headerSize (wordAt input off) with hsz
              by_cases h1 : 1 ≤ sz
              · left
                have hrestv : rest = if 1 < sz then
                    (input.drop (off + 8)).take ((sz - 1) * 8) else [] := by
                  by_cases hgt : 1 < sz
                  · rw [if_pos hgt] at hrest ⊢
                    exact (readExact_ok hrest).2
                  · rw [if_neg hgt] at hrest ⊢
                    injection hrest with hr
                    exact hr.symm
                have hlen2 : off + sz * 8 ≤ input.length := by
                  by_cases hgt : 1 < sz
                  · rw [if_pos hgt] at hrest
                    have := (readExact_ok hrest).1
                    omega
                  · have h1' : sz = 1 := by omega
                    omega
                refine ⟨h1, hlen2, ?_⟩
                have hrlen : rest.length = (sz - 1) * 8 := by
                  rw [hrestv]
                  by_cases hgt : 1 < sz
                  · rw [if_pos hgt]
                    exact length_drop_take (by omega)
                  · rw [if_neg hgt]
                    have h1' : sz = 1 := by omega
                    simp [h1']
                have hchunk : headerBytes ++ rest = backfillBytesAt input off := by
                  rw [hhbv, hrestv]
                  unfold backfillBytesAt
                  rw [← hsz]
                  by_cases hgt : 1 < sz
                  · rw [if_pos hgt]
                    rw [show sz * 8 = 8 + (sz - 1) * 8 by omega, List.take_add]
                    simp [List.drop_drop, Nat.add_comm]
                  · rw [if_neg hgt]
                    have h1' : sz = 1 := by omega
                    simp [h1']
                ext x
                · simp only
                  omega
                · simp [hchunk]
                · rfl
                · rfl
              · right
                have hsz0 : sz = 0 := by omega
                have hrestv : rest = [] := by
                  rw [if_neg (by omega : ¬ headerSize (wordAt input off) > 1)] at hrest
                  injection hrest with hr
                  exact hr.symm
                refine ⟨hsz0, ?_⟩
                ext x
                · simp only
                  simp [hrestv]
                  omega
                · simp [hhbv, hrestv]
                · rfl
                · rfl

/-- A successful backfill never touches the offset index or the emitted
set, never moves the cursor backwards, and only appends chunks whose
leading word is the header of a cached String record. -/
theorem maybe_write_frame {input : List Nat} {s : CutterState} {idx : Nat}
    {s' : CutterState} (h : maybe_write_str_ref input s idx = .ok s') :
    s'.index_to_offset = s.index_to_offset ∧
    s'.written_indexes = s.written_indexes ∧
    s.pos ≤ s'.pos ∧
    ∃ L, s'.output = s.output ++ L ∧
      ∀ c ∈ L, ∃ off, s.index_to_offset idx = some off ∧
        chunkWord c = wordAt input off ∧ off + 8 ≤ input.length := by
  rcases maybe_write_ok_cases h with ⟨_, rfl⟩ | ⟨hw, off, hoff, hoff8, hpos, hcase⟩
  · exact ⟨rfl, rfl, le_refl _, [], by simp, by simp⟩
  · rcases hcase with ⟨h1, hlen, rfl⟩ | ⟨hsz0, rfl⟩
    · refine ⟨rfl, rfl, le_refl _, [backfillBytesAt input off], rfl, ?_⟩
      intro c hc
      simp at hc
      subst hc
      refine ⟨off, hoff, ?_, hoff8⟩
      unfold backfillBytesAt
      exact chunkWord_eq_wordAt (by omega)
    · refine ⟨rfl, rfl, by simp, [(input.drop off).take 8], rfl, ?_⟩
      intro c hc
      simp at hc
      subst hc
      exact ⟨off, hoff, chunkWord_eq_wordAt (by omega), hoff8⟩

/-- Backfill restores the cursor position exactly, provided every cached
offset it may consult points at a header with a nonzero size field. -/
theorem maybe_write_pos {input : List Nat} {s : CutterState} {idx : Nat}
    {s' : CutterState}
    (hsz : ∀ off, s.index_to_offset idx = some off →
      1 ≤ headerSize (wordAt input off))
    (h : maybe_write_str_ref input s idx = .ok s') :
    s'.pos = s.pos := by
  rcases maybe_write_ok_cases h with ⟨_, rfl⟩ | ⟨hw, off, hoff, hoff8, hpos, hcase⟩
  · rfl
  · rcases hcase with ⟨h1, hlen, rfl⟩ | ⟨hsz0, rfl⟩
    · rfl
    · have := hsz off hoff
      omega

theorem rest_read_ok {input : List Nat} {off : Nat}
    (h : off + headerSize (wordAt input off) * 8 ≤ input.length)
    (_h8 : off + 8 ≤ input.length) :
    (if headerSize (wordAt input off) > 1 then
        readExact input (off + 8) ((headerSize (wordAt input off) - 1) * 8)
      else .ok ([] : List Nat)) =
    .ok (if headerSize (wordAt input off) > 1 then
        (input.drop (off + 8)).take ((headerSize (wordAt input off) - 1) * 8)
      else []) := by
  by_cases hgt : headerSize (wordAt input off) > 1
  · rw [if_pos hgt, if_pos hgt]
    exact readExact_ok_of (by omega)
  · rw [if_neg hgt, if_neg hgt]

theorem header_rest_eq_backfill {input : List Nat} {off : Nat}
    (h1 : 1 ≤ headerSize (wordAt input off)) :
    (input.drop off).take 8 ++
      (if headerSize (wordAt input off) > 1 then
        (input.drop (off + 8)).take ((headerSize (wordAt input off) - 1) * 8)
      else []) = backfillBytesAt input off := by
  unfold backfillBytesAt
  set sz := headerSize (wordAt input off) with hsz
  by_cases hgt : sz > 1
  · rw [if_pos hgt]
    rw [show sz * 8 = 8 + (sz - 1) * 8 by omega, List.take_add]
    simp [List.drop_drop, Nat.add_comm]
  · rw [if_neg hgt]
    have h1' : sz = 1 := by omega
    simp [h1']

/-- Backfill of a not-yet-emitted index whose cached String record sits
entirely before the cursor: the record bytes are appended to the output
and nothing else changes. -/
theorem maybe_write_ok_char {input : List Nat} {s : CutterState} {idx off : Nat}
    (hw : s.written_indexes idx = false)
    (hoff : s.index_to_offset idx = some off)
    (h1 : 1 ≤ headerSize (wordAt input off))
    (hlen : off + headerSize (wordAt input off) * 8 ≤ input.length)
    (hpos : off + headerSize (wordAt input off) * 8 ≤ s.pos) :
    maybe_write_str_ref input s idx =
      .ok { s with output := s.output ++ [backfillBytesAt input off] } := by
  have h8 : off + 8 ≤ input.length := by omega
  unfold maybe_write_str_ref
  rw [if_neg (by simp [hw]), hoff]
  dsimp only
  rw [if_neg (by omega : ¬ s.pos < off), readExact_ok_of h8]
  dsimp only
  have hwad : wordOfBytes ((input.drop off).take 8) = wordAt input off := rfl
  rw [hwad, rest_read_ok hlen h8]
  dsimp only
  rw [if_neg (by omega : ¬ s.pos < off + headerSize (wordAt input off) * 8)]
  refine congrArg Except.ok ?_
  ext x
  · simp only
    have : (if headerSize (wordAt input off) > 1 then
        (input.drop (off + 8)).take ((headerSize (wordAt input off) - 1) * 8)
      else ([] : List Nat)).length = (headerSize (wordAt input off) - 1) * 8 := by
      by_cases hgt : headerSize (wordAt input off) > 1
      · rw [if_pos hgt]
        exact length_drop_take (by omega)
      · rw [if_neg hgt]
        have : headerSize (wordAt input off) = 1 := by omega
        simp [this]
    rw [this]
    omega
  · simp [header_rest_eq_backfill h1]
  · rfl
  · rfl

/-- Backfill of a not-yet-emitted index absent from the offset index is
the fatal dangling-reference error. -/
theorem maybe_write_missing {input : List Nat} {s : CutterState} {idx : Nat}
    (hw : s.written_indexes idx = false)
    (hoff : s.index_to_offset idx = none) :
    maybe_write_str_ref input s idx = .error (.missingStringIndex idx) := by
  unfold maybe_write_str_ref
  rw [if_neg (by simp [hw]), hoff]

/-- The chunk a backfill of index `idx` appends, given the offset map. -/
def refChunk (input : List Nat) (m : Nat → Option Nat) (idx : Nat) : List Nat :=
  match m idx with
  | some off => backfillBytesAt input off
  | none => []

/-- A chunk whose leading word is the header of some record cached in the
offset map. -/
def FromIndex (input : List Nat) (m : Nat → Option Nat) (c : List Nat) : Prop :=
  ∃ off, (∃ idx, m idx = some off) ∧ chunkWord c = wordAt input off ∧
    off + 8 ≤ input.length

theorem write_ref_frame {input : List Nat} {r : StrRef} {s s' : CutterState}
    (h : write_ref input r s = .ok s') :
    s'.index_to_offset = s.index_to_offset ∧
    s'.written_indexes = s.written_indexes ∧
    s.pos ≤ s'.pos ∧
    ∃ L, s'.output = s.output ++ L ∧ ∀ c ∈ L, FromIndex input s.index_to_offset c := by
  rcases r with _ | i | len
  · injection h with h; subst h
    exact ⟨rfl, rfl, le_refl _, [], by simp, by simp⟩
  · obtain ⟨h1, h2, h3, L, h4, h5⟩ := maybe_write_frame h
    exact ⟨h1, h2, h3, L, h4, fun c hc => by
      obtain ⟨off, hoff, hcw, hlen⟩ := h5 c hc
      exact ⟨off, ⟨i, hoff⟩, hcw, hlen⟩⟩
  · injection h with h; subst h
    exact ⟨rfl, rfl, le_refl _, [], by simp, by simp⟩

theorem write_val_ref_frame {input : List Nat} {v : Option StrRef}
    {s s' : CutterState} (h : write_val_ref input v s = .ok s') :
    s'.index_to_offset = s.index_to_offset ∧
    s'.written_indexes = s.written_indexes ∧
    s.pos ≤ s'.pos ∧
    ∃ L, s'.output = s.output ++ L ∧ ∀ c ∈ L, FromIndex input s.index_to_offset c := by
  rcases v with _ | r
  · injection h with h; subst h
    exact ⟨rfl, rfl, le_refl _, [], by simp, by simp⟩
  · rcases r with _ | i | len
    · injection h with h; subst h
      exact ⟨rfl, rfl, le_refl _, [], by simp, by simp⟩
    · obtain ⟨h1, h2, h3, L, h4, h5⟩ := maybe_write_frame h
      exact ⟨h1, h2, h3, L, h4, fun c hc => by
        obtain ⟨off, hoff, hcw, hlen⟩ := h5 c hc
        exact ⟨off, ⟨i, hoff⟩, hcw, hlen⟩⟩
    · injection h with h; subst h
      exact ⟨rfl, rfl, le_refl _, [], by simp, by simp⟩

theorem processArgRefs_frame {input : List Nat} :
    ∀ {args : List Argument} {s s' : CutterState},
    processArgRefs input args s = .ok s' →
    s'.index_to_offset = s.index_to_offset ∧
    s'.written_indexes = s.written_indexes ∧
    s.pos ≤ s'.pos ∧
    ∃ L, s'.output = s.output ++ L ∧ ∀ c ∈ L, FromIndex input s.index_to_offset c
  | [], s, s', h => by
    injection h with h; subst h
    exact ⟨rfl, rfl, le_refl _, [], by simp, by simp⟩
  | a :: rest, s, s', h => by
    unfold processArgRefs at h
    rcases h1 : write_ref input a.name s with e | s1
    · rw [h1] at h; simp at h
    · rw [h1] at h
      dsimp only at h
      rcases h2 : write_val_ref input a.value s1 with e | s2
      · rw [h2] at h; simp at h
      · rw [h2] at h
        dsimp only at h
        obtain ⟨m1, w1, p1, L1, o1, f1⟩ := write_ref_frame h1
        obtain ⟨m2, w2, p2, L2, o2, f2⟩ := write_val_ref_frame h2
        obtain ⟨m3, w3, p3, L3, o3, f3⟩ := processArgRefs_frame h
        refine ⟨by rw [m3, m2, m1], by rw [w3, w2, w1], by omega, L1 ++ L2 ++ L3,
          by rw [o3, o2, o1]; simp, ?_⟩
        intro c hc
        simp at hc
        rcases hc with hc | hc | hc
        · exact f1 c hc
        · rw [← m1]; exact f2 c hc
        · rw [← m1, ← m2]; exact f3 c hc

theorem process_event_frame {input : List Nat} {sts ets : Nat} {e : Event}
    {s s2 : CutterState} {b : Bool}
    (h : process_event input sts ets e s = .ok (s2, b)) :
    s2.index_to_offset = s.index_to_offset ∧
    s2.written_indexes = s.written_indexes ∧
    s.pos ≤ s2.pos ∧
    ∃ L, s2.output = s.output ++ L ∧ ∀ c ∈ L, FromIndex input s.index_to_offset c := by
  unfold process_event at h
  split at h
  · injection h with h
    injection h with h hb
    subst h
    exact ⟨rfl, rfl, le_refl _, [], by simp, by simp⟩
  · rcases h1 : write_ref input e.name s with er | s1
    · rw [h1] at h; simp at h
    · rw [h1] at h
      dsimp only at h
      rcases h2 : write_ref input e.category s1 with er | sB
      · rw [h2] at h; simp at h
      · rw [h2] at h
        dsimp only at h
        rcases h3 : processArgRefs input e.arguments sB with er | sC
        · rw [h3] at h; simp at h
        · rw [h3] at h
          dsimp only at h
          injection h with h
          injection h with h hb
          subst h
          obtain ⟨m1, w1, p1, L1, o1, f1⟩ := write_ref_frame h1
          obtain ⟨m2, w2, p2, L2, o2, f2⟩ := write_ref_frame h2
          obtain ⟨m3, w3, p3, L3, o3, f3⟩ := processArgRefs_frame h3
          refine ⟨by rw [m3, m2, m1], by rw [w3, w2, w1], by omega, L1 ++ L2 ++ L3,
            by rw [o3, o2, o1]; simp, ?_⟩
          intro c hc
          simp at hc
          rcases hc with hc | hc | hc
          · exact f1 c hc
          · rw [← m1]; exact f2 c hc
          · rw [← m1, ← m2]; exact f3 c hc

theorem write_ref_pos {input : List Nat} {r : StrRef} {s s' : CutterState}
    (hsz : ∀ idx off, s.index_to_offset idx = some off →
      1 ≤ headerSize (wordAt input off))
    (h : write_ref input r s = .ok s') : s'.pos = s.pos := by
  rcases r with _ | i | len
  · injection h with h; subst h; rfl
  · exact maybe_write_pos (fun off hoff => hsz i off hoff) h
  · injection h with h; subst h; rfl

theorem write_val_ref_pos {input : List Nat} {v : Option StrRef} {s s' : CutterState}
    (hsz : ∀ idx off, s.index_to_offset idx = some off →
      1 ≤ headerSize (wordAt input off))
    (h : write_val_ref input v s = .ok s') : s'.pos = s.pos := by
  rcases v with _ | r
  · injection h with h; subst h; rfl
  · rcases r with _ | i | len
    · injection h with h; subst h; rfl
    · exact maybe_write_pos (fun off hoff => hsz i off hoff) h
    · injection h with h; subst h; rfl

theorem processArgRefs_pos {input : List Nat} :
    ∀ {args : List Argument} {s s' : CutterState},
    (∀ idx off, s.index_to_offset idx = some off →
      1 ≤ headerSize (wordAt input off)) →
    processArgRefs input args s = .ok s' → s'.pos = s.pos
  | [], s, s', _, h => by injection h with h; subst h; rfl
  | a :: rest, s, s', hsz, h => by
    unfold processArgRefs at h
    rcases h1 : write_ref input a.name s with e | s1
    · rw [h1] at h; simp at h
    · rw [h1] at h
      dsimp only at h
      rcases h2 : write_val_ref input a.value s1 with e | s2
      · rw [h2] at h; simp at h
      · rw [h2] at h
        dsimp only at h
        obtain ⟨m1, -, -, -⟩ := write_ref_frame h1
        obtain ⟨m2, -, -, -⟩ := write_val_ref_frame h2
        have hsz1 : ∀ idx off, s1.index_to_offset idx = some off →
            1 ≤ headerSize (wordAt input off) := by rw [m1]; exact hsz
        have hsz2 : ∀ idx off, s2.index_to_offset idx = some off →
            1 ≤ headerSize (wordAt input off) := by rw [m2, m1]; exact hsz
        rw [processArgRefs_pos hsz2 h, write_val_ref_pos hsz1 h2,
          write_ref_pos hsz h1]

theorem process_event_pos {input : List Nat} {sts ets : Nat} {e : Event}
    {s s2 : CutterState} {b : Bool}
    (hsz : ∀ idx off, s.index_to_offset idx = some off →
      1 ≤ headerSize (wordAt input off))
    (h : process_event input sts ets e s = .ok (s2, b)) : s2.pos = s.pos := by
  unfold process_event at h
  split at h
  · injection h with h
    injection h with h hb
    subst h; rfl
  · rcases h1 : write_ref input e.name s with er | s1
    · rw [h1] at h; simp at h
    · rw [h1] at h
      dsimp only at h
      rcases h2 : write_ref input e.category s1 with er | sB
      · rw [h2] at h; simp at h
      · rw [h2] at h
        dsimp only at h
        rcases h3 : processArgRefs input e.arguments sB with er | sC
        · rw [h3] at h; simp at h
        · rw [h3] at h
          dsimp only at h
          injection h with h
          injection h with h hb
          subst h
          obtain ⟨m1, -, -, -⟩ := write_ref_frame h1
          obtain ⟨m2, -, -, -⟩ := write_ref_frame h2
          have hsz1 : ∀ idx off, s1.index_to_offset idx = some off →
              1 ≤ headerSize (wordAt input off) := by rw [m1]; exact hsz
          have hszB : ∀ idx off, sB.index_to_offset idx = some off →
              1 ≤ headerSize (wordAt input off) := by rw [m2, m1]; exact hsz
          rw [processArgRefs_pos hszB h3, write_ref_pos hsz1 h2,
            write_ref_pos hsz h1]

/-- Excluded events leave the state entirely untouched: the window test
runs before any backfill. -/
theorem process_event_outside {input : List Nat} {sts ets : Nat} {e : Event}
    {s : CutterState} (h : e.timestamp < sts ∨ ets < e.timestamp) :
    process_event input sts ets e s = .ok (s, false) := by
  unfold process_event
  rw [if_pos h]

theorem process_event_true_in_window {input : List Nat} {sts ets : Nat}
    {e : Event} {s s2 : CutterState}
    (h : process_event input sts ets e s = .ok (s2, true)) :
    sts ≤ e.timestamp ∧ e.timestamp ≤ ets := by
  by_cases hts : e.timestamp < sts ∨ ets < e.timestamp
  · rw [process_event_outside hts] at h
    injection h with h
    injection h with h hb
    exact absurd hb (by simp)
  · push_neg at hts
    exact hts

theorem write_ref_ok_char {input : List Nat} {r : StrRef} {s : CutterState}
    (hw : ∀ i, s.written_indexes i = false)
    (hm : ∀ i ∈ r.refIdxList, ∃ off, s.index_to_offset i = some off ∧
      1 ≤ headerSize (wordAt input off) ∧
      off + headerSize (wordAt input off) * 8 ≤ input.length ∧
      off + headerSize (wordAt input off) * 8 ≤ s.pos) :
    write_ref input r s =
      .ok { s with output := s.output ++
        (r.refIdxList.map (refChunk input s.index_to_offset)) } := by
  rcases r with _ | i | len
  · simp [write_ref, StrRef.refIdxList]
  · obtain ⟨off, hoff, h1, hlen, hpos⟩ := hm i (by simp [StrRef.refIdxList])
    unfold write_ref
    dsimp only
    rw [maybe_write_ok_char (hw i) hoff h1 hlen hpos]
    simp [StrRef.refIdxList, refChunk, hoff]
  · simp [write_ref, StrRef.refIdxList]

theorem write_val_ref_ok_char {input : List Nat} {v : Option StrRef}
    {s : CutterState}
    (hw : ∀ i, s.written_indexes i = false)
    (hm : ∀ i ∈ valRefList v, ∃ off, s.index_to_offset i = some off ∧
      1 ≤ headerSize (wordAt input off) ∧
      off + headerSize (wordAt input off) * 8 ≤ input.length ∧
      off + headerSize (wordAt input off) * 8 ≤ s.pos) :
    write_val_ref input v s =
      .ok { s with output := s.output ++
        ((valRefList v).map (refChunk input s.index_to_offset)) } := by
  rcases v with _ | r
  · simp [write_val_ref, valRefList]
  · rcases r with _ | i | len
    · simp [write_val_ref, valRefList]
    · obtain ⟨off, hoff, h1, hlen, hpos⟩ := hm i (by simp [valRefList])
      unfold write_val_ref
      dsimp only
      rw [maybe_write_ok_char (hw i) hoff h1 hlen hpos]
      simp [valRefList, refChunk, hoff]
    · simp [write_val_ref, valRefList]

theorem processArgRefs_ok_char {input : List Nat} :
    ∀ {args : List Argument} {s : CutterState},
    (∀ i, s.written_indexes i = false) →
    (∀ i ∈ (args.map argRefIdxs).flatten, ∃ off, s.index_to_offset i = some off ∧
      1 ≤ headerSize (wordAt input off) ∧
      off + headerSize (wordAt input off) * 8 ≤ input.length ∧
      off + headerSize (wordAt input off) * 8 ≤ s.pos) →
    processArgRefs input args s =
      .ok { s with output := s.output ++
        ((args.map argRefIdxs).flatten.map (refChunk input s.index_to_offset)) }
  | [], s, hw, hm => by simp [processArgRefs]
  | a :: rest, s, hw, hm => by
    have hmem : ∀ i, (i ∈ a.name.refIdxList ∨ i ∈ valRefList a.value ∨
        i ∈ (rest.map argRefIdxs).flatten) →
        i ∈ ((a :: rest).map argRefIdxs).flatten := by
      intro i hi
      simp only [List.map_cons, List.flatten_cons, List.mem_append, argRefIdxs]
      tauto
    unfold processArgRefs
    rw [write_ref_ok_char hw (fun i hi => hm i (hmem i (Or.inl hi)))]
    dsimp only
    rw [write_val_ref_ok_char (s := { s with output := s.output ++
        (a.name.refIdxList.map (refChunk input s.index_to_offset)) })
      hw (fun i hi => hm i (hmem i (Or.inr (Or.inl hi))))]
    dsimp only
    rw [processArgRefs_ok_char (s := { s with output := (s.output ++
          (a.name.refIdxList.map (refChunk input s.index_to_offset))) ++
          ((valRefList a.value).map (refChunk input s.index_to_offset)) })
      hw (fun i hi => hm i (hmem i (Or.inr (Or.inr hi))))]
    refine congrArg Except.ok ?_
    ext x
    · rfl
    · simp [argRefIdxs]
    · rfl
    · rfl

theorem process_event_ok_char {input : List Nat} {sts ets : Nat} {e : Event}
    {s : CutterState}
    (hts : ¬(e.timestamp < sts ∨ ets < e.timestamp))
    (hw : ∀ i, s.written_indexes i = false)
    (hm : ∀ i ∈ e.refIdxs, ∃ off, s.index_to_offset i = some off ∧
      1 ≤ headerSize (wordAt input off) ∧
      off + headerSize (wordAt input off) * 8 ≤ input.length ∧
      off + headerSize (wordAt input off) * 8 ≤ s.pos) :
    process_event input sts ets e s =
      .ok ({ s with output := s.output ++
        (e.refIdxs.map (refChunk input s.index_to_offset)) }, true) := by
  have hmem : ∀ i, (i ∈ e.name.refIdxList ∨ i ∈ e.category.refIdxList ∨
      i ∈ (e.arguments.map argRefIdxs).flatten) → i ∈ e.refIdxs := by
    intro i hi
    simp only [Event.refIdxs, List.mem_append]
    tauto
  unfold process_event
  rw [if_neg hts]
  rw [write_ref_ok_char hw (fun i hi => hm i (hmem i (Or.inl hi)))]
  dsimp only
  rw [write_ref_ok_char (s := { s with output := s.output ++
      (e.name.refIdxList.map (refChunk input s.index_to_offset)) })
    hw (fun i hi => hm i (hmem i (Or.inr (Or.inl hi))))]
  dsimp only
  rw [processArgRefs_ok_char (s := { s with output := (s.output ++
        (e.name.refIdxList.map (refChunk input s.index_to_offset))) ++
        (e.category.refIdxList.map (refChunk input s.index_to_offset)) })
    hw (fun i hi => hm i (hmem i (Or.inr (Or.inr hi))))]
  dsimp only
  refine congrArg Except.ok ?_
  refine congrArg (fun st => (st, true)) ?_
  ext x
  · rfl
  · simp [Event.refIdxs]
  · rfl
  · rfl

theorem maybe_write_ok_lookup {input : List Nat} {s : CutterState} {idx : Nat}
    {s' : CutterState} (h : maybe_write_str_ref input s idx = .ok s')
    (hw : s.written_indexes idx = false) :
    (s.index_to_offset idx).isSome := by
  rcases maybe_write_ok_cases h with ⟨hwt, -⟩ | ⟨-, off, hoff, -⟩
  · rw [hw] at hwt; exact absurd hwt (by simp)
  · rw [hoff]; rfl

theorem write_ref_ok_lookup {input : List Nat} {r : StrRef} {s s' : CutterState}
    (h : write_ref input r s = .ok s') :
    ∀ i ∈ r.refIdxList, s.written_indexes i = false →
      (s.index_to_offset i).isSome := by
  intro i hi hw
  rcases r with _ | j | len
  · simp [StrRef.refIdxList] at hi
  · simp [StrRef.refIdxList] at hi
    subst hi
    exact maybe_write_ok_lookup h hw
  · simp [StrRef.refIdxList] at hi

theorem write_val_ref_ok_lookup {input : List Nat} {v : Option StrRef}
    {s s' : CutterState} (h : write_val_ref input v s = .ok s') :
    ∀ i ∈ valRefList v, s.written_indexes i = false →
      (s.index_to_offset i).isSome := by
  intro i hi hw
  rcases v with _ | r
  · simp [valRefList] at hi
  · rcases r with _ | j | len
    · simp [valRefList] at hi
    · simp [valRefList] at hi
      subst hi
      exact maybe_write_ok_lookup h hw
    · simp [valRefList] at hi

theorem processArgRefs_ok_lookup {input : List Nat} :
    ∀ {args : List Argument} {s s' : CutterState},
    processArgRefs input args s = .ok s' →
    ∀ i ∈ (args.map argRefIdxs).flatten, s.written_indexes i = false →
      (s.index_to_offset i).isSome
  | [], s, s', h => by
    intro i hi
    simp at hi
  | a :: rest, s, s', h => by
    intro i hi hw
    unfold processArgRefs at h
    rcases h1 : write_ref input a.name s with e | s1
    · rw [h1] at h; simp at h
    · rw [h1] at h
      dsimp only at h
      rcases h2 : write_val_ref input a.value s1 with e | s2
      · rw [h2] at h; simp at h
      · rw [h2] at h
        dsimp only at h
        obtain ⟨m1, w1, -, -⟩ := write_ref_frame h1
        obtain ⟨m2, w2, -, -⟩ := write_val_ref_frame h2
        rw [List.map_cons, List.flatten_cons, List.mem_append] at hi
        rcases hi with hi | hi
        · rw [argRefIdxs, List.mem_append] at hi
          rcases hi with hi | hi
          · exact write_ref_ok_lookup h1 i hi hw
          · have := write_val_ref_ok_lookup h2 i hi (by rw [w1]; exact hw)
            rw [m1] at this
            exact this
        · have := processArgRefs_ok_lookup h i hi (by rw [w2, w1]; exact hw)
          rw [m2, m1] at this
          exact this

theorem process_event_ok_lookup {input : List Nat} {sts ets : Nat} {e : Event}
    {s s2 : CutterState} {b : Bool}
    (h : process_event input sts ets e s = .ok (s2, b))
    (hts : ¬(e.timestamp < sts ∨ ets < e.timestamp)) :
    ∀ i ∈ e.refIdxs, s.written_indexes i = false →
      (s.index_to_offset i).isSome := by
  intro i hi hw
  unfold process_event at h
  rw [if_neg hts] at h
  rcases h1 : write_ref input e.name s with er | s1
  · rw [h1] at h; simp at h
  · rw [h1] at h
    dsimp only at h
    rcases h2 : write_ref input e.category s1 with er | sB
    · rw [h2] at h; simp at h
    · rw [h2] at h
      dsimp only at h
      rcases h3 : processArgRefs input e.arguments sB with er | sC
      · rw [h3] at h; simp at h
      · obtain ⟨m1, w1, -, -⟩ := write_ref_frame h1
        obtain ⟨m2, w2, -, -⟩ := write_ref_frame h2
        rw [Event.refIdxs, List.mem_append, List.mem_append] at hi
        rcases hi with (hi | hi) | hi
        · exact write_ref_ok_lookup h1 i hi hw
        · have := write_ref_ok_lookup h2 i hi (by rw [w1]; exact hw)
          rw [m1] at this
          exact this
        · have := processArgRefs_ok_lookup h3 i hi (by rw [w2, w1]; exact hw)
          rw [m2, m1] at this
          exact this

/-- A recognized in-window event carrying a reference that is neither
emitted nor cached cannot be processed successfully. -/
theorem process_event_missing_err {input : List Nat} {sts ets : Nat} {e : Event}
    {s : CutterState}
    (hts : ¬(e.timestamp < sts ∨ ets < e.timestamp))
    (hw : ∀ i, s.written_indexes i = false)
    (hmiss : ∃ i ∈ e.refIdxs, s.index_to_offset i = none) :
    ∃ err, process_event input sts ets e s = .error err := by
  rcases hres : process_event input sts ets e s with err | p
  · exact ⟨err, rfl⟩
  · obtain ⟨i, hi, hnone⟩ := hmiss
    obtain ⟨s2, b⟩ := p
    have := process_event_ok_lookup hres hts i hi (hw i)
    rw [hnone] at this
    simp at this

theorem record_type_tag_string {w : Nat}
    (h : record_type w = Except.ok RecordType.string) :
    w % 16 = 2 := by
  unfold record_type at h
  have hlt : w % 16 < 16 := Nat.mod_lt _ (by norm_num)
  generalize hm : w % 16 = t at h hlt ⊢
  interval_cases t <;> simp_all

theorem record_type_tag_event {w : Nat}
    (h : record_type w = Except.ok RecordType.event) :
    w % 16 = 4 := by
  unfold record_type at h
  have hlt : w % 16 < 16 := Nat.mod_lt _ (by norm_num)
  generalize hm : w % 16 = t at h hlt ⊢
  interval_cases t <;> simp_all

theorem record_type_tag_other {w : Nat} {rt : RecordType}
    (h : record_type w = Except.ok rt) (h2 : rt ≠ RecordType.string)
    (h4 : rt ≠ RecordType.event) :
    w % 16 ≠ 2 ∧ w % 16 ≠ 4 := by
  unfold record_type at h
  have hlt : w % 16 < 16 := Nat.mod_lt _ (by norm_num)
  generalize hm : w % 16 = t at h hlt ⊢
  interval_cases t <;> simp_all

theorem chunk_eq_recordBytes {input : List Nat} {p : Nat} :
    (input.drop p).take 8 ++
      (if headerSize (wordAt input p) > 1 then
        (input.drop (p + 8)).take ((headerSize (wordAt input p) - 1) * 8)
      else []) = recordBytesAt input p := by
  unfold recordBytesAt advanceOf
  set sz := headerSize (wordAt input p) with hsz
  by_cases hgt : sz > 1
  · rw [if_pos hgt]
    rw [show max (sz * 8) 8 = 8 + (sz - 1) * 8 by omega, List.take_add]
    simp [List.drop_drop, Nat.add_comm]
  · rw [if_neg hgt]
    rw [show max (sz * 8) 8 = 8 by omega]
    simp

/-- Outcome of a String-record step of the scan. -/
def StringStep (input : List Nat) (s s' : CutterState) : Prop :=
  wordAt input s.pos % 16 = 2 ∧
  1 ≤ headerSize (wordAt input s.pos) ∧
  s'.pos = s.pos + advanceOf (wordAt input s.pos) ∧
  s'.output = s.output ∧
  s'.written_indexes = s.written_indexes ∧
  s'.index_to_offset = fun j =>
    if j = index_from_header (wordAt input s.pos) then some s.pos
    else s.index_to_offset j

/-- Outcome of an Event-record step of the scan. -/
def EventStep (input : List Nat) (sts ets : Nat) (s s' : CutterState) : Prop :=
  wordAt input s.pos % 16 = 4 ∧
  2 ≤ headerSize (wordAt input s.pos) ∧
  s.pos + headerSize (wordAt input s.pos) * 8 ≤ input.length ∧
  ∃ er s2 b,
    decodeEventWords (wordsOf (recordBytesAt input s.pos)) = some er ∧
    (er.isRecognized = true →
      process_event input sts ets er.eventOf
        { s with pos := s.pos + advanceOf (wordAt input s.pos) } = .ok (s2, b)) ∧
    (er.isRecognized = false →
      s2 = { s with pos := s.pos + advanceOf (wordAt input s.pos) } ∧ b = true) ∧
    s' = (if b then { s2 with output := s2.output ++ [recordBytesAt input s.pos] }
          else s2)

/-- Outcome of a passthrough step of the scan. -/
def OtherStep (input : List Nat) (s s' : CutterState) : Prop :=
  wordAt input s.pos % 16 ≠ 2 ∧ wordAt input s.pos % 16 ≠ 4 ∧
  s.pos + advanceOf (wordAt input s.pos) ≤ input.length ∧
  s'.pos = s.pos + advanceOf (wordAt input s.pos) ∧
  s'.output = s.output ++ [recordBytesAt input s.pos] ∧
  s'.written_indexes = s.written_indexes ∧
  s'.index_to_offset = s.index_to_offset

/-- Master case analysis of one successful scan step. -/
theorem cutStep_ok_cases {input : List Nat} {sts ets : Nat} {s : CutterState}
    {res : Option CutterState} (h : cutStep input sts ets s = .ok res) :
    (res = none ∧ input.length < s.pos + 8) ∨
    (∃ s', res = some s' ∧ s.pos + 8 ≤ input.length ∧
      (StringStep input s s' ∨ EventStep input sts ets s s' ∨
       OtherStep input s s')) := by
  unfold cutStep at h
  split at h
  · rename_i hlen
    left
    injection h with h
    exact ⟨h.symm, hlen⟩
  · rename_i hlen
    push_neg at hlen
    right
    dsimp only at h
    have hwf : wordOfBytes ((input.drop s.pos).take 8) = wordAt input s.pos := rfl
    rw [hwf] at h
    rcases hrt : record_type (wordAt input s.pos) with e | rt
    · rw [hrt] at h; simp at h
    · rw [hrt] at h
      dsimp only at h
      match rt, hrt with
      | .string, hrt =>
        have htag := record_type_tag_string hrt
        by_cases hsz : headerSize (wordAt input s.pos) = 0
        · rw [if_pos hsz] at h; simp at h
        · rw [if_neg hsz] at h
          injection h with h
          refine ⟨_, h.symm, hlen, Or.inl ?_⟩
          refine ⟨htag, by omega, ?_, rfl, rfl, rfl⟩
          dsimp only
          rw [advanceOf_of_size_pos (by omega)]
          omega
      | .event, hrt =>
        have htag := record_type_tag_event hrt
        rcases hre : readExact input s.pos (headerSize (wordAt input s.pos) * 8)
            with e | recordBytes
        · rw [hre] at h; simp at h
        · rw [hre] at h
          dsimp only at h
          obtain ⟨hrb1, hrb2⟩ := readExact_ok hre
          rcases hde : decodeEventWords (wordsOf recordBytes) with _ | er
          · rw [hde] at h; simp at h
          · rw [hde] at h
            dsimp only at h
            have hde' : decodeEventWords (wordsOf ((input.drop s.pos).take
                (headerSize (wordAt input s.pos) * 8))) = some er := by
              rw [← hrb2]; exact hde
            obtain ⟨hsz2, hblen, -⟩ := decode_at_facts hde'
            have hadv : advanceOf (wordAt input s.pos) =
                headerSize (wordAt input s.pos) * 8 :=
              advanceOf_of_size_pos (by omega)
            have hrb3 : recordBytes = recordBytesAt input s.pos := by
              rw [hrb2]
              unfold recordBytesAt
              rw [hadv]
            have hde'' : decodeEventWords (wordsOf (recordBytesAt input s.pos))
                = some er := by rw [← hrb3]; exact hde
            rcases er with e2 | e2 | e2 | e2 | e2 | e2
            all_goals (
              try dsimp only [EventRecord.eventOf, EventRecord.isRecognized] at h ⊢)
            -- five recognized cases
            case durationBegin | durationEnd | durationComplete | counter
                | instant =>
              rcases hpe : process_event input sts ets e2
                  { s with pos := s.pos + headerSize (wordAt input s.pos) * 8 }
                  with er2 | p
              · rw [hpe] at h; simp at h
              · rw [hpe] at h
                dsimp only at h
                obtain ⟨s2, b⟩ := p
                injection h with h
                refine ⟨_, h.symm, hlen, Or.inr (Or.inl ?_)⟩
                refine ⟨htag, hsz2, hblen, _, s2, b, hde'', ?_,
                  by simp [EventRecord.isRecognized], by rw [hrb3]⟩
                intro _
                rw [show ({ s with pos := s.pos + advanceOf (wordAt input s.pos) }
                    : CutterState) =
                  { s with pos := s.pos + headerSize (wordAt input s.pos) * 8 } by
                    rw [hadv]]
                dsimp only [EventRecord.eventOf]
                exact hpe
            case other =>
              injection h with h
              refine ⟨_, h.symm, hlen, Or.inr (Or.inl ?_)⟩
              refine ⟨htag, hsz2, hblen,
                EventRecord.other e2,
                { s with pos := s.pos + advanceOf (wordAt input s.pos) }, true,
                hde'', by simp [EventRecord.isRecognized], fun _ => ⟨rfl, rfl⟩, ?_⟩
              simp only [hrb3, hadv, if_true]
      | .metadata, hrt | .initialization, hrt | .thread, hrt | .blob, hrt
          | .userspace, hrt | .kernel, hrt | .scheduling, hrt | .log, hrt =>
        first
        | (obtain ⟨ht2, ht4⟩ := record_type_tag_other hrt (by simp) (by simp)
           rcases hrest : (if headerSize (wordAt input s.pos) > 1 then
               readExact input (s.pos + 8)
                 ((headerSize (wordAt input s.pos) - 1) * 8)
             else .ok ([] : List Nat)) with e | rest
           · rw [hrest] at h; simp at h
           · rw [hrest] at h
             dsimp only at h
             injection h with h
             have hrestv : rest = (if headerSize (wordAt input s.pos) > 1 then
                 (input.drop (s.pos + 8)).take
                   ((headerSize (wordAt input s.pos) - 1) * 8)
               else []) := by
               by_cases hgt : headerSize (wordAt input s.pos) > 1
               · rw [if_pos hgt] at hrest ⊢
                 exact (readExact_ok hrest).2
               · rw [if_neg hgt] at hrest ⊢
                 injection hrest with hr
                 exact hr.symm
             have hbound : s.pos + advanceOf (wordAt input s.pos) ≤
                 input.length := by
               by_cases hgt : headerSize (wordAt input s.pos) > 1
               · rw [if_pos hgt] at hrest
                 have := (readExact_ok hrest).1
                 unfold advanceOf
                 omega
               · unfold advanceOf
                 omega
             have hrlen : rest.length =
                 (if headerSize (wordAt input s.pos) > 1 then
                   (headerSize (wordAt input s.pos) - 1) * 8 else 0) := by
               rw [hrestv]
               by_cases hgt : headerSize (wordAt input s.pos) > 1
               · rw [if_pos hgt, if_pos hgt]
                 refine length_drop_take ?_
                 have hb := hbound
                 unfold advanceOf at hb
                 omega
               · rw [if_neg hgt, if_neg hgt]
                 rfl
             refine ⟨_, h.symm, hlen, Or.inr (Or.inr
               ⟨ht2, ht4, hbound, ?_, ?_, rfl, rfl⟩)⟩
             · dsimp only
               rw [hrlen]
               unfold advanceOf
               by_cases hgt : headerSize (wordAt input s.pos) > 1
               · rw [if_pos hgt]; omega
               · rw [if_neg hgt]; omega
             · dsimp only
               rw [hrestv, chunk_eq_recordBytes])

theorem cutStep_pos_mono {input : List Nat} {sts ets : Nat} {s s' : CutterState}
    (h : cutStep input sts ets s = .ok (some s')) : s.pos + 8 ≤ s'.pos := by
  rcases cutStep_ok_cases h with ⟨hnone, -⟩ | ⟨s'', hs, hlen, hshape⟩
  · simp at hnone
  · injection hs with hs
    subst hs
    have hadv := advanceOf_ge_eight (wordAt input s.pos)
    rcases hshape with ⟨-, -, hpos, -⟩ | ⟨-, -, -, er, s2, b, -, hrec, hunrec, hs'⟩ |
        ⟨-, -, -, hpos, -⟩
    · omega
    · have hs2 : s.pos + 8 ≤ s2.pos := by
        rcases her : er.isRecognized with _ | _
        · obtain ⟨h1, h2⟩ := hunrec her
          rw [h1]
          show s.pos + 8 ≤ s.pos + advanceOf (wordAt input s.pos)
          omega
        · obtain ⟨-, -, hp, -⟩ := process_event_frame (hrec her)
          have hp2 : s.pos + advanceOf (wordAt input s.pos) ≤ s2.pos := hp
          omega
      subst hs'
      rcases b with _ | _
      · simpa using hs2
      · simpa using hs2
    · omega

theorem cutStep_output_mono {input : List Nat} {sts ets : Nat}
    {s s' : CutterState} (h : cutStep input sts ets s = .ok (some s')) :
    ∃ L, s'.output = s.output ++ L := by
  rcases cutStep_ok_cases h with ⟨hnone, -⟩ | ⟨s'', hs, hlen, hshape⟩
  · simp at hnone
  · injection hs with hs
    subst hs
    rcases hshape with ⟨-, -, -, hout, -⟩ | ⟨-, -, -, er, s2, b, -, hrec, hunrec, hs'⟩ |
        ⟨-, -, -, -, hout, -⟩
    · exact ⟨[], by simp [hout]⟩
    · have hs2 : ∃ L, s2.output = s.output ++ L := by
        rcases her : er.isRecognized with _ | _
        · obtain ⟨h1, h2⟩ := hunrec her
          rw [h1]
          exact ⟨[], by simp⟩
        · obtain ⟨-, -, -, L, hL, -⟩ := process_event_frame (hrec her)
          exact ⟨L, hL⟩
      obtain ⟨L, hL⟩ := hs2
      subst hs'
      rcases b with _ | _
      · exact ⟨L, by simpa using hL⟩
      · refine ⟨L ++ [recordBytesAt input s.pos], ?_⟩
        show ({ s2 with output := s2.output ++ [recordBytesAt input s.pos] }
          : CutterState).output = s.output ++ (L ++ [recordBytesAt input s.pos])
        dsimp only
        rw [hL, List.append_assoc]
    · exact ⟨[recordBytesAt input s.pos], hout⟩

theorem cutLoop_output_mono {input : List Nat} {sts ets : Nat} :
    ∀ {fuel : Nat} {s : CutterState} {out : List (List Nat)},
    cutLoop input sts ets fuel s = .ok out → ∃ t, out = s.output ++ t
  | 0, s, out, h => by simp [cutLoop] at h
  | fuel + 1, s, out, h => by
    unfold cutLoop at h
    rcases hstep : cutStep input sts ets s with e | res
    · rw [hstep] at h; simp at h
    · rw [hstep] at h
      rcases res with _ | s'
      · dsimp only at h
        injection h with h
        exact ⟨[], by simp [h]⟩
      · dsimp only at h
        obtain ⟨t, ht⟩ := cutLoop_output_mono h
        obtain ⟨L, hL⟩ := cutStep_output_mono hstep
        exact ⟨L ++ t, by rw [ht, hL, List.append_assoc]⟩


theorem readExact_err {input : List Nat} {p n : Nat} {e : CutError}
    (h : readExact input p n = .error e) : e = .unexpectedEof := by
  unfold readExact at h
  split at h
  · simp at h
  · injection h with h
    exact h.symm

theorem record_type_err {w : Nat} {e : CutError}
    (h : record_type w = .error e) : e = .unknownRecordType (w % 16) := by
  unfold record_type at h
  have hlt : w % 16 < 16 := Nat.mod_lt _ (by norm_num)
  generalize hm : w % 16 = t at h hlt ⊢
  interval_cases t <;> simp_all

theorem maybe_write_err_class {input : List Nat} {s : CutterState} {idx : Nat}
    {e : CutError} (h : maybe_write_str_ref input s idx = .error e) :
    e ≠ .outOfFuel := by
  unfold maybe_write_str_ref at h
  by_cases hw : s.written_indexes idx = true
  · rw [if_pos hw] at h; simp at h
  · rw [if_neg hw] at h
    rcases hoff : s.index_to_offset idx with _ | off
    · rw [hoff] at h
      dsimp only at h
      injection h with h
      subst h
      simp
    · rw [hoff] at h
      dsimp only at h
      by_cases hpo : s.pos < off
      · rw [if_pos hpo] at h
        injection h with h
        subst h
        simp
      · rw [if_neg hpo] at h
        rcases hhb : readExact input off 8 with e2 | headerBytes
        · rw [hhb] at h
          dsimp only at h
          injection h with h
          subst h
          rw [readExact_err hhb]
          simp
        · rw [hhb] at h
          dsimp only at h
          rcases hrest : (if headerSize (wordOfBytes headerBytes) > 1 then
              readExact input (off + 8) ((headerSize (wordOfBytes headerBytes) - 1) * 8)
            else .ok ([] : List Nat)) with e2 | rest
          · rw [hrest] at h
            dsimp only at h
            injection h with h
            subst h
            by_cases hgt : headerSize (wordOfBytes headerBytes) > 1
            · rw [if_pos hgt] at hrest
              rw [readExact_err hrest]
              simp
            · rw [if_neg hgt] at hrest
              simp at hrest
          · rw [hrest] at h
            dsimp only at h
            split at h
            · injection h with h
              subst h
              simp
            · simp at h

theorem write_ref_err_class {input : List Nat} {r : StrRef} {s : CutterState}
    {e : CutError} (h : write_ref input r s = .error e) : e ≠ .outOfFuel := by
  rcases r with _ | i | len
  · simp [write_ref] at h
  · exact maybe_write_err_class h
  · simp [write_ref] at h

theorem write_val_ref_err_class {input : List Nat} {v : Option StrRef}
    {s : CutterState} {e : CutError} (h : write_val_ref input v s = .error e) :
    e ≠ .outOfFuel := by
  rcases v with _ | r
  · simp [write_val_ref] at h
  · rcases r with _ | i | len
    · simp [write_val_ref] at h
    · exact maybe_write_err_class h
    · simp [write_val_ref] at h

theorem processArgRefs_err_class {input : List Nat} :
    ∀ {args : List Argument} {s : CutterState} {e : CutError},
    processArgRefs input args s = .error e → e ≠ .outOfFuel
  | [], s, e, h => by simp [processArgRefs] at h
  | a :: rest, s, e, h => by
    unfold processArgRefs at h
    rcases h1 : write_ref input a.name s with e1 | s1
    · rw [h1] at h
      dsimp only at h
      injection h with h
      subst h
      exact write_ref_err_class h1
    · rw [h1] at h
      dsimp only at h
      rcases h2 : write_val_ref input a.value s1 with e2 | s2
      · rw [h2] at h
        dsimp only at h
        injection h with h
        subst h
        exact write_val_ref_err_class h2
      · rw [h2] at h
        dsimp only at h
        exact processArgRefs_err_class h

theorem process_event_err_class {input : List Nat} {sts ets : Nat} {e : Event}
    {s : CutterState} {err : CutError}
    (h : process_event input sts ets e s = .error err) : err ≠ .outOfFuel := by
  unfold process_event at h
  split at h
  · simp at h
  · rcases h1 : write_ref input e.name s with e1 | s1
    · rw [h1] at h
      dsimp only at h
      injection h with h
      subst h
      exact write_ref_err_class h1
    · rw [h1] at h
      dsimp only at h
      rcases h2 : write_ref input e.category s1 with e2 | s2
      · rw [h2] at h
        dsimp only at h
        injection h with h
        subst h
        exact write_ref_err_class h2
      · rw [h2] at h
        dsimp only at h
        rcases h3 : processArgRefs input e.arguments s2 with e3 | s3
        · rw [h3] at h
          dsimp only at h
          injection h with h
          subst h
          exact processArgRefs_err_class h3
        · rw [h3] at h
          simp at h

theorem cutStep_err_class {input : List Nat} {sts ets : Nat} {s : CutterState}
    {e : CutError} (h : cutStep input sts ets s = .error e) : e ≠ .outOfFuel := by
  unfold cutStep at h
  split at h
  · simp at h
  · dsimp only at h
    rcases hrt : record_type (wordOfBytes ((input.drop s.pos).take 8)) with e1 | rt
    · rw [hrt] at h
      dsimp only at h
      injection h with h
      subst h
      rw [record_type_err hrt]
      simp
    · rw [hrt] at h
      dsimp only at h
      match rt, hrt with
      | .string, hrt =>
        by_cases hsz : headerSize (wordOfBytes ((input.drop s.pos).take 8)) = 0
        · rw [if_pos hsz] at h
          injection h with h
          subst h
          simp
        · rw [if_neg hsz] at h
          simp at h
      | .event, hrt =>
        rcases hre : readExact input s.pos
            (headerSize (wordOfBytes ((input.drop s.pos).take 8)) * 8)
            with e1 | recordBytes
        · rw [hre] at h
          dsimp only at h
          injection h with h
          subst h
          rw [readExact_err hre]
          simp
        · rw [hre] at h
          dsimp only at h
          rcases hde : decodeEventWords (wordsOf recordBytes) with _ | er
          · rw [hde] at h
            dsimp only at h
            injection h with h
            subst h
            simp
          · rw [hde] at h
            dsimp only at h
            rcases er with e2 | e2 | e2 | e2 | e2 | e2 <;>
              dsimp only at h
            case other => simp at h
            all_goals (
              rcases hpe : process_event input sts ets e2
                  { s with pos := s.pos +
                    headerSize (wordOfBytes ((input.drop s.pos).take 8)) * 8 }
                  with e3 | p
              · rw [hpe] at h
                dsimp only at h
                injection h with h
                subst h
                exact process_event_err_class hpe
              · rw [hpe] at h
                obtain ⟨s2, b⟩ := p
                simp at h)
      | .metadata, hrt | .initialization, hrt | .thread, hrt | .blob, hrt
          | .userspace, hrt | .kernel, hrt | .scheduling, hrt | .log, hrt =>
        first
        | (rcases hrest : (if headerSize (wordOfBytes ((input.drop s.pos).take 8)) > 1
              then readExact input (s.pos + 8)
                ((headerSize (wordOfBytes ((input.drop s.pos).take 8)) - 1) * 8)
              else .ok ([] : List Nat)) with e1 | rest
           · rw [hrest] at h
             dsimp only at h
             injection h with h
             subst h
             by_cases hgt : headerSize (wordOfBytes ((input.drop s.pos).take 8)) > 1
             · rw [if_pos hgt] at hrest
               rw [readExact_err hrest]
               simp
             · rw [if_neg hgt] at hrest
               simp at hrest
           · rw [hrest] at h
             simp at h)

theorem cutLoop_not_fuel {input : List Nat} {sts ets : Nat} :
    ∀ {fuel : Nat} {s : CutterState}, 1 ≤ fuel →
    input.length + 8 ≤ s.pos + 8 * fuel →
    cutLoop input sts ets fuel s ≠ .error .outOfFuel
  | 0, s, h1, h2 => by omega
  | fuel + 1, s, h1, h2 => by
    unfold cutLoop
    rcases hstep : cutStep input sts ets s with e | res
    · intro hcon
      injection hcon with hcon
      exact cutStep_err_class hstep hcon
    · rcases res with _ | s'
      · simp
      · dsimp only
        have hpos := cutStep_pos_mono hstep
        have hlen : s.pos + 8 ≤ input.length := by
          rcases cutStep_ok_cases hstep with ⟨hc, -⟩ | ⟨s'', hs, hl, -⟩
          · simp at hc
          · exact hl
        have hfuel1 : 1 ≤ fuel := by omega
        exact cutLoop_not_fuel hfuel1 (by omega)

/-- The fuel bound used by `cut` is never reached: a run of `cut` ends
only by clean end-of-stream or a genuine error of the program. -/
theorem cut_not_fuel (input : List Nat) (sts ets : Nat) :
    cut input sts ets ≠ .error .outOfFuel := by
  unfold cut
  exact cutLoop_not_fuel (by omega) (by simp [initState]; omega)

/-- Scan positions form a single chain: from any scan position strictly
below another, one whole record step still does not overshoot it. -/
theorem scanPos_chain_le {input : List Nat} :
    ∀ n p q, p + q ≤ n → ScanPos input p → ScanPos input q → p < q →
    p + 8 ≤ input.length →
    p + advanceOf (wordAt input p) ≤ q := by
  intro n
  induction n using Nat.strong_induction_on with
  | _ n ih =>
    intro p q hn hp hq hpq hplen
    cases hq with
    | zero => omega
    | step hq0 hq0len =>
      rename_i q0
      rcases lt_trichotomy p q0 with hlt | heq | hgt
      · have h8 := advanceOf_ge_eight (wordAt input q0)
        have := ih (p + q0) (by omega) p q0 (le_refl _) hp hq0 hlt hplen
        omega
      · subst heq
        exact le_refl _
      · have := ih (q0 + p) (by omega) q0 p (le_refl _) hq0 hp hgt hq0len
        omega

/-- No scan position lies strictly inside a scanned record. -/
theorem scanPos_le_of_lt_next {input : List Nat} {p q : Nat}
    (hp : ScanPos input p) (hq : ScanPos input q)
    (hplen : p + 8 ≤ input.length)
    (h : q < p + advanceOf (wordAt input p)) : q ≤ p := by
  by_contra hcon
  push_neg at hcon
  have := scanPos_chain_le (p + q) p q (le_refl _) hp hq hcon hplen
  omega

/-- The invariant maintained by the scan between loop iterations: the
cursor is a scan position, the emitted set is empty (the code never
inserts into it), and the offset index holds, for each cached index, the
offset of the last String record defining it before the cursor — a
record lying entirely before the cursor with a nonzero size field. -/
structure ScanInv (input : List Nat) (s : CutterState) : Prop where
  scan : ScanPos input s.pos
  wEmpty : ∀ i, s.written_indexes i = false
  sound : ∀ idx off, s.index_to_offset idx = some off →
    ScanPos input off ∧ DefinesAt input off idx ∧
    1 ≤ headerSize (wordAt input off) ∧
    off + headerSize (wordAt input off) * 8 ≤ s.pos ∧
    ∀ q, ScanPos input q → q < s.pos → DefinesAt input q idx → q ≤ off
  complete : ∀ idx q, ScanPos input q → q < s.pos → DefinesAt input q idx →
    (s.index_to_offset idx).isSome

theorem inv_init (input : List Nat) : ScanInv input initState := by
  refine ⟨ScanPos.zero, fun i => rfl, fun idx off h => by simp [initState] at h,
    fun idx q hq hlt hdef => ?_⟩
  simp [initState] at hlt

theorem inv_step {input : List Nat} {sts ets : Nat} {s s' : CutterState}
    (hinv : ScanInv input s) (h : cutStep input sts ets s = .ok (some s')) :
    ScanInv input s' := by
  rcases cutStep_ok_cases h with ⟨hnone, -⟩ | ⟨s'', hs, hlen, hshape⟩
  · simp at hnone
  · injection hs with hs
    subst hs
    have hnext : ScanPos input (s.pos + advanceOf (wordAt input s.pos)) :=
      hinv.scan.step hlen
    have hle : ∀ q, ScanPos input q →
        q < s.pos + advanceOf (wordAt input s.pos) → q ≤ s.pos :=
      fun q hq hlt => scanPos_le_of_lt_next hinv.scan hq hlen hlt
    rcases hshape with ⟨htag, hsz, hpos, hout, hwr, hmap⟩ |
        ⟨htag, hsz, hblen, er, s2, b, hde, hrec, hunrec, hs'⟩ |
        ⟨htag2, htag4, hbound, hpos, hout, hwr, hmap⟩
    · -- String record
      have hadv : advanceOf (wordAt input s.pos) =
          headerSize (wordAt input s.pos) * 8 := advanceOf_of_size_pos hsz
      refine ⟨by rw [hpos]; exact hnext, by rw [hwr]; exact hinv.wEmpty, ?_, ?_⟩
      · intro idx off hoff
        simp only [hmap] at hoff
        by_cases hidx : idx = index_from_header (wordAt input s.pos)
        · rw [if_pos hidx] at hoff
          injection hoff with hoff
          subst hoff
          refine ⟨hinv.scan, ⟨hlen, htag, hidx.symm⟩, hsz, by rw [hpos]; omega, ?_⟩
          intro q hq hlt hdef
          rw [hpos] at hlt
          exact hle q hq hlt
        · rw [if_neg hidx] at hoff
          obtain ⟨hsc, hdef, hsz1, hbnd, hlast⟩ := hinv.sound idx off hoff
          refine ⟨hsc, hdef, hsz1, by rw [hpos]; omega, ?_⟩
          intro q hq hlt hdefq
          rw [hpos] at hlt
          have hqle := hle q hq hlt
          rcases lt_or_eq_of_le hqle with hqlt | hqeq
          · exact hlast q hq hqlt hdefq
          · exfalso
            subst hqeq
            exact hidx hdefq.2.2.symm
      · intro idx q hq hlt hdef
        rw [hpos] at hlt
        simp only [hmap]
        by_cases hidx : idx = index_from_header (wordAt input s.pos)
        · rw [if_pos hidx]; rfl
        · rw [if_neg hidx]
          have hqle := hle q hq hlt
          rcases lt_or_eq_of_le hqle with hqlt | hqeq
          · exact hinv.complete idx q hq hqlt hdef
          · exfalso
            subst hqeq
            exact hidx hdef.2.2.symm
    · -- Event record
      have hadv : advanceOf (wordAt input s.pos) =
          headerSize (wordAt input s.pos) * 8 := advanceOf_of_size_pos (by omega)
      have hs1 : ∀ idx off,
          (({ s with pos := s.pos + advanceOf (wordAt input s.pos) }
            : CutterState)).index_to_offset idx = some off →
          1 ≤ headerSize (wordAt input off) :=
        fun idx off hoff => (hinv.sound idx off hoff).2.2.1
      have hs2facts : s2.index_to_offset = s.index_to_offset ∧
          s2.written_indexes = s.written_indexes ∧
          s2.pos = s.pos + advanceOf (wordAt input s.pos) := by
        rcases her : er.isRecognized with _ | _
        · obtain ⟨h1, -⟩ := hunrec her
          rw [h1]
          exact ⟨rfl, rfl, rfl⟩
        · obtain ⟨hm, hw, -, -⟩ := process_event_frame (hrec her)
          exact ⟨hm, hw, process_event_pos hs1 (hrec her)⟩
      obtain ⟨hs2m, hs2w, hs2p⟩ := hs2facts
      have hmain : ScanInv input s2 := by
        refine ⟨by rw [hs2p]; exact hnext, by rw [hs2w]; exact hinv.wEmpty, ?_, ?_⟩
        · intro idx off hoff
          rw [hs2m] at hoff
          obtain ⟨hsc, hdef, hsz1, hbnd, hlast⟩ := hinv.sound idx off hoff
          refine ⟨hsc, hdef, hsz1, by rw [hs2p]; omega, ?_⟩
          intro q hq hlt hdefq
          rw [hs2p] at hlt
          have hqle := hle q hq hlt
          rcases lt_or_eq_of_le hqle with hqlt | hqeq
          · exact hlast q hq hqlt hdefq
          · exfalso
            subst hqeq
            rw [hdefq.2.1] at htag
            omega
        · intro idx q hq hlt hdef
          rw [hs2p] at hlt
          rw [hs2m]
          have hqle := hle q hq hlt
          rcases lt_or_eq_of_le hqle with hqlt | hqeq
          · exact hinv.complete idx q hq hqlt hdef
          · exfalso
            subst hqeq
            rw [hdef.2.1] at htag
            omega
      subst hs'
      rcases b with _ | _
      · simpa using hmain
      · refine ⟨hmain.scan, hmain.wEmpty, ?_, hmain.complete⟩
        intro idx off hoff
        exact hmain.sound idx off hoff
    · -- passthrough record
      refine ⟨by rw [hpos]; exact hnext, by rw [hwr]; exact hinv.wEmpty, ?_, ?_⟩
      · intro idx off hoff
        rw [hmap] at hoff
        obtain ⟨hsc, hdef, hsz1, hbnd, hlast⟩ := hinv.sound idx off hoff
        refine ⟨hsc, hdef, hsz1, by rw [hpos]; omega, ?_⟩
        intro q hq hlt hdefq
        rw [hpos] at hlt
        have hqle := hle q hq hlt
        rcases lt_or_eq_of_le hqle with hqlt | hqeq
        · exact hlast q hq hqlt hdefq
        · exfalso
          subst hqeq
          exact htag2 hdefq.2.1
      · intro idx q hq hlt hdef
        rw [hpos] at hlt
        rw [hmap]
        have hqle := hle q hq hlt
        rcases lt_or_eq_of_le hqle with hqlt | hqeq
        · exact hinv.complete idx q hq hqlt hdef
        · exfalso
          subst hqeq
          exact htag2 hdef.2.1

theorem chunkWord_recordBytesAt (input : List Nat) (p : Nat) :
    chunkWord (recordBytesAt input p) = wordAt input p :=
  chunkWord_eq_wordAt (advanceOf_ge_eight _)

theorem cutStep_pos_exact {input : List Nat} {sts ets : Nat} {s s' : CutterState}
    (hinv : ScanInv input s) (h : cutStep input sts ets s = .ok (some s')) :
    s'.pos = s.pos + advanceOf (wordAt input s.pos) := by
  rcases cutStep_ok_cases h with ⟨hnone, -⟩ | ⟨s'', hs, hlen, hshape⟩
  · simp at hnone
  · injection hs with hs
    subst hs
    rcases hshape with ⟨-, -, hpos, -⟩ |
        ⟨-, hsz, -, er, s2, b, -, hrec, hunrec, hs'⟩ | ⟨-, -, -, hpos, -⟩
    · exact hpos
    · have hs1 : ∀ idx off, (({ s with
          pos := s.pos + advanceOf (wordAt input s.pos) } : CutterState)).index_to_offset
            idx = some off → 1 ≤ headerSize (wordAt input off) :=
        fun idx off hoff => (hinv.sound idx off hoff).2.2.1
      have hs2p : s2.pos = s.pos + advanceOf (wordAt input s.pos) := by
        rcases her : er.isRecognized with _ | _
        · rw [(hunrec her).1]
        · exact process_event_pos hs1 (hrec her)
      subst hs'
      rcases b with _ | _ <;> simpa using hs2p
    · exact hpos

/-- Chunks appended by backfills during an event step are String-record
chunks, so the passthrough filter drops them. -/
theorem filter_other_fromIndex {input : List Nat} {s : CutterState}
    (hinv : ScanInv input s) {L : List (List Nat)}
    (hL : ∀ c ∈ L, FromIndex input s.index_to_offset c) :
    L.filter isOtherChunk = [] := by
  rw [List.filter_eq_nil_iff]
  intro c hc
  obtain ⟨off, ⟨idx, hoff⟩, hcw, -⟩ := hL c hc
  obtain ⟨-, hdef, -⟩ := hinv.sound idx off hoff
  simp [isOtherChunk, hcw, hdef.2.1]

/-- Passthrough fidelity, loop invariant form: the non-String non-Event
chunks of the final output are those already written followed by the
non-String non-Event records of the remaining stream, in order. -/
theorem cutLoop_other_filter {input : List Nat} {sts ets : Nat} :
    ∀ {fuel : Nat} {s : CutterState} {out : List (List Nat)},
    ScanInv input s →
    cutLoop input sts ets fuel s = .ok out →
    out.filter isOtherChunk =
      s.output.filter isOtherChunk ++
        (scanRecsAux input fuel s.pos).filter isOtherChunk
  | 0, s, out, hinv, h => by simp [cutLoop] at h
  | fuel + 1, s, out, hinv, h => by
    unfold cutLoop at h
    rcases hstep : cutStep input sts ets s with e | res
    · rw [hstep] at h; simp at h
    · rw [hstep] at h
      rcases res with _ | s'
      · dsimp only at h
        injection h with h
        subst h
        rcases cutStep_ok_cases hstep with ⟨-, hbrk⟩ | ⟨s'', hs, -, -⟩
        · unfold scanRecsAux
          rw [if_pos hbrk]
          simp
        · simp at hs
      · dsimp only at h
        have hIH := cutLoop_other_filter (inv_step hinv hstep) h
        have hposx := cutStep_pos_exact hinv hstep
        rcases cutStep_ok_cases hstep with ⟨hc, -⟩ | ⟨s'', hs, hlen, hshape⟩
        · simp at hc
        · injection hs with hs
          subst hs
          have hunf0 : scanRecsAux input (fuel + 1) s.pos =
              if input.length < s.pos + 8 then []
              else recordBytesAt input s.pos ::
                scanRecsAux input fuel (s.pos + advanceOf (wordAt input s.pos)) := rfl
          have hunf : scanRecsAux input (fuel + 1) s.pos =
              recordBytesAt input s.pos ::
                scanRecsAux input fuel (s.pos + advanceOf (wordAt input s.pos)) := by
            rw [hunf0, if_neg (by omega)]
          rw [hunf, hIH, hposx]
          rcases hshape with ⟨htag, -, -, hout, -⟩ |
              ⟨htag, -, -, er, s2, b, -, hrec, hunrec, hs'⟩ |
              ⟨htag2, htag4, -, -, hout, -⟩
          · rw [hout]
            have : isOtherChunk (recordBytesAt input s.pos) = false := by
              simp [isOtherChunk, chunkWord_recordBytesAt, htag]
            rw [List.filter_cons_of_neg (by simp [this])]
          · have hrbF : isOtherChunk (recordBytesAt input s.pos) = false := by
              simp [isOtherChunk, chunkWord_recordBytesAt, htag]
            have hs2out : s2.output.filter isOtherChunk =
                s.output.filter isOtherChunk := by
              rcases her : er.isRecognized with _ | _
              · rw [(hunrec her).1]
              · obtain ⟨-, -, -, L, hL, hLF⟩ := process_event_frame (hrec her)
                have hLn : L.filter isOtherChunk = [] :=
                  filter_other_fromIndex hinv hLF
                rw [hL]
                show (s.output ++ L).filter isOtherChunk = _
                rw [List.filter_append, hLn, List.append_nil]
            subst hs'
            rw [List.filter_cons_of_neg (by simp [hrbF])]
            rcases b with _ | _
            · simpa using hs2out
            · show List.filter isOtherChunk
                (s2.output ++ [recordBytesAt input s.pos]) ++ _ = _
              rw [List.filter_append, hs2out]
              have hnil : List.filter isOtherChunk [recordBytesAt input s.pos]
                  = [] := by simp [hrbF]
              rw [hnil]
              simp
          · rw [hout]
            have hrbT : isOtherChunk (recordBytesAt input s.pos) = true := by
              simp [isOtherChunk, chunkWord_recordBytesAt]
              omega
            rw [List.filter_append]
            have hone : List.filter isOtherChunk [recordBytesAt input s.pos]
                = [recordBytesAt input s.pos] := by simp [hrbT]
            rw [hone, List.filter_cons_of_pos (by simp [hrbT])]
            simp

/-- The chunk, if it decodes as an Event record of a recognized subtype,
carries a timestamp inside the window. -/
def EventChunkInWindow (sts ets : Nat) (c : List Nat) : Prop :=
  ∀ er, decodeEventWords (wordsOf c) = some er → er.isRecognized = true →
    sts ≤ er.eventOf.timestamp ∧ er.eventOf.timestamp ≤ ets

theorem decode_chunkWord_tag {c : List Nat} {er : EventRecord}
    (h : decodeEventWords (wordsOf c) = some er) : chunkWord c % 16 = 4 := by
  obtain ⟨w0, rest, hws, htag, -, -⟩ := decodeEventWords_shape h
  have hw0 := wordsOf_head hws
  unfold chunkWord
  rw [← hw0]
  exact htag

theorem cutLoop_window {input : List Nat} {sts ets : Nat} :
    ∀ {fuel : Nat} {s : CutterState} {out : List (List Nat)},
    ScanInv input s →
    (∀ c ∈ s.output, EventChunkInWindow sts ets c) →
    cutLoop input sts ets fuel s = .ok out →
    ∀ c ∈ out, EventChunkInWindow sts ets c
  | 0, s, out, hinv, hout, h => by simp [cutLoop] at h
  | fuel + 1, s, out, hinv, hout, h => by
    unfold cutLoop at h
    rcases hstep : cutStep input sts ets s with e | res
    · rw [hstep] at h; simp at h
    · rw [hstep] at h
      rcases res with _ | s'
      · dsimp only at h
        injection h with h
        subst h
        exact hout
      · dsimp only at h
        refine cutLoop_window (inv_step hinv hstep) ?_ h
        rcases cutStep_ok_cases hstep with ⟨hc, -⟩ | ⟨s'', hs, hlen, hshape⟩
        · simp at hc
        · injection hs with hs
          subst hs
          rcases hshape with ⟨htag, -, -, houtS, -⟩ |
              ⟨htag, -, -, er, s2, b, hde, hrec, hunrec, hs'⟩ |
              ⟨htag2, htag4, -, -, houtS, -⟩
          · rw [houtS]
            exact hout
          · have hs2out : ∀ c ∈ s2.output, EventChunkInWindow sts ets c := by
              rcases her : er.isRecognized with _ | _
              · rw [(hunrec her).1]
                exact hout
              · obtain ⟨-, -, -, L, hL, hLF⟩ := process_event_frame (hrec her)
                rw [hL]
                intro c hc
                rcases List.mem_append.1 hc with hc | hc
                · exact hout c hc
                · obtain ⟨off, ⟨idx, hoff⟩, hcw, -⟩ := hLF c hc
                  obtain ⟨-, hdef, -⟩ := hinv.sound idx off hoff
                  intro er2 hde2
                  exfalso
                  have := decode_chunkWord_tag hde2
                  rw [hcw, hdef.2.1] at this
                  omega
            subst hs'
            rcases b with _ | _
            · simpa using hs2out
            · intro c hc
              rcases List.mem_append.1 hc with hc | hc
              · exact hs2out c hc
              · simp at hc
                subst hc
                intro er2 hde2 hrec2
                rw [hde] at hde2
                injection hde2 with hde2
                subst hde2
                rcases her : er.isRecognized with _ | _
                · rw [her] at hrec2; simp at hrec2
                · exact process_event_true_in_window (hrec her)
          · rw [houtS]
            intro c hc
            rcases List.mem_append.1 hc with hc | hc
            · exact hout c hc
            · simp at hc
              subst hc
              intro er2 hde2
              exfalso
              have := decode_chunkWord_tag hde2
              rw [chunkWord_recordBytesAt] at this
              omega

theorem record_type_of_tag4 {w : Nat} (h : w % 16 = 4) :
    record_type w = .ok .event := by
  unfold record_type
  rw [h]
  norm_num

theorem decode_recordBytesAt_facts {input : List Nat} {p : Nat} {er : EventRecord}
    (h : decodeEventWords (wordsOf (recordBytesAt input p)) = some er) :
    2 ≤ headerSize (wordAt input p) ∧
    p + headerSize (wordAt input p) * 8 ≤ input.length ∧
    wordAt input p % 16 = 4 ∧
    recordBytesAt input p = (input.drop p).take (headerSize (wordAt input p) * 8) := by
  have hsz : 2 ≤ headerSize (wordAt input p) := by
    by_contra hcon
    push_neg at hcon
    have hadv : advanceOf (wordAt input p) = 8 := by
      unfold advanceOf
      omega
    obtain ⟨w0, rest, hws, -, hlen, h2⟩ := decodeEventWords_shape h
    have hwsl : (wordsOf (recordBytesAt input p)).length ≤ 1 := by
      rw [wordsOf_length]
      unfold recordBytesAt
      rw [hadv]
      have hl : ((input.drop p).take 8).length ≤ 8 := by
        simp [List.length_take]
      omega
    have hw0 : w0 = wordAt input p := by
      have hh := wordsOf_head hws
      unfold recordBytesAt at hh
      rw [hadv] at hh
      rw [hh, take_of_drop_take]
      norm_num
      rfl
    rw [hws] at hwsl hlen
    simp at hwsl hlen
    rw [hw0] at hlen h2
    omega
  have hrw : recordBytesAt input p =
      (input.drop p).take (headerSize (wordAt input p) * 8) := by
    unfold recordBytesAt
    rw [advanceOf_of_size_pos (by omega)]
  rw [hrw] at h
  obtain ⟨a, b, c⟩ := decode_at_facts h
  exact ⟨a, b, c, hrw⟩

/-- The hypotheses available at the moment the scan reaches a recognized
in-window event whose references are all cached. -/
theorem scanInv_refs_available {input : List Nat} {s : CutterState} {e : Event}
    (hinv : ScanInv input s)
    (hrefs : ∀ idx ∈ e.refIdxs, DefinedBefore input s.pos idx)
    (hslen : s.pos ≤ input.length) :
    ∀ idx ∈ e.refIdxs, ∃ off, s.index_to_offset idx = some off ∧
      1 ≤ headerSize (wordAt input off) ∧
      off + headerSize (wordAt input off) * 8 ≤ input.length ∧
      off + headerSize (wordAt input off) * 8 ≤ s.pos := by
  intro idx hidx
  obtain ⟨q, hq, hqlt, hqdef⟩ := hrefs idx hidx
  have hsome := hinv.complete idx q hq hqlt hqdef
  obtain ⟨off, hoff⟩ := Option.isSome_iff_exists.1 hsome
  obtain ⟨-, -, hsz1, hbnd, -⟩ := hinv.sound idx off hoff
  exact ⟨off, hoff, hsz1, by omega, hbnd⟩

/-- Firing the scan step on a recognized, in-window, fully-resolvable
event: the String records for its references are backfilled, in
reference order, and then the event record itself is written verbatim. -/
theorem cutStep_event_fire {input : List Nat} {sts ets : Nat} {s : CutterState}
    {er : EventRecord} (hinv : ScanInv input s)
    (hde : decodeEventWords (wordsOf (recordBytesAt input s.pos)) = some er)
    (hrec : er.isRecognized = true)
    (hts1 : sts ≤ er.eventOf.timestamp) (hts2 : er.eventOf.timestamp ≤ ets)
    (hrefs : ∀ idx ∈ er.eventOf.refIdxs, DefinedBefore input s.pos idx) :
    cutStep input sts ets s = .ok (some
      { s with pos := s.pos + headerSize (wordAt input s.pos) * 8,
               output := (s.output ++
                 (er.eventOf.refIdxs.map (refChunk input s.index_to_offset))) ++
                 [recordBytesAt input s.pos] }) := by
  obtain ⟨hsz, hblen, htag, hrw⟩ := decode_recordBytesAt_facts hde
  have hm := scanInv_refs_available hinv hrefs (by omega)
  unfold cutStep
  rw [if_neg (by omega : ¬ input.length < s.pos + 8)]
  dsimp only
  have hwf : wordOfBytes ((input.drop s.pos).take 8) = wordAt input s.pos := rfl
  rw [hwf, record_type_of_tag4 htag]
  dsimp only
  rw [readExact_ok_of (by omega), ← hrw]
  dsimp only
  rw [hde]
  dsimp only
  have hts : ¬(er.eventOf.timestamp < sts ∨ ets < er.eventOf.timestamp) := by
    push_neg
    exact ⟨hts1, hts2⟩
  have hm1 : ∀ idx ∈ er.eventOf.refIdxs, ∃ off,
      (({ s with pos := s.pos + headerSize (wordAt input s.pos) * 8 }
        : CutterState)).index_to_offset idx = some off ∧
      1 ≤ headerSize (wordAt input off) ∧
      off + headerSize (wordAt input off) * 8 ≤ input.length ∧
      off + headerSize (wordAt input off) * 8 ≤
        (({ s with pos := s.pos + headerSize (wordAt input s.pos) * 8 }
          : CutterState)).pos := by
    intro idx hidx
    obtain ⟨off, hoff, h1, h2, h3⟩ := hm idx hidx
    exact ⟨off, hoff, h1, h2, by dsimp only; omega⟩
  rcases er with e2 | e2 | e2 | e2 | e2 | e2 <;>
    dsimp only [EventRecord.eventOf] at hts hm1 ⊢
  case other => simp [EventRecord.isRecognized] at hrec
  all_goals (
    rw [process_event_ok_char
      (s := { s with pos := s.pos + headerSize (wordAt input s.pos) * 8 })
      hts (fun i => hinv.wEmpty i) hm1]
    dsimp only
    rw [if_pos rfl])

/-- Firing the scan step on a recognized in-window event with a
reference that was never defined earlier: the step aborts. -/
theorem cutStep_event_missing {input : List Nat} {sts ets : Nat}
    {s : CutterState} {er : EventRecord} (hinv : ScanInv input s)
    (hde : decodeEventWords (wordsOf (recordBytesAt input s.pos)) = some er)
    (hrec : er.isRecognized = true)
    (hts1 : sts ≤ er.eventOf.timestamp) (hts2 : er.eventOf.timestamp ≤ ets)
    (hmiss : ∃ idx ∈ er.eventOf.refIdxs, ¬ DefinedBefore input s.pos idx) :
    ∃ err, cutStep input sts ets s = .error err := by
  obtain ⟨hsz, hblen, htag, hrw⟩ := decode_recordBytesAt_facts hde
  unfold cutStep
  rw [if_neg (by omega : ¬ input.length < s.pos + 8)]
  dsimp only
  have hwf : wordOfBytes ((input.drop s.pos).take 8) = wordAt input s.pos := rfl
  rw [hwf, record_type_of_tag4 htag]
  dsimp only
  rw [readExact_ok_of (by omega), ← hrw]
  dsimp only
  rw [hde]
  dsimp only
  have hts : ¬(er.eventOf.timestamp < sts ∨ ets < er.eventOf.timestamp) := by
    push_neg
    exact ⟨hts1, hts2⟩
  have hmiss2 : ∃ i ∈ er.eventOf.refIdxs,
      (({ s with pos := s.pos + headerSize (wordAt input s.pos) * 8 }
        : CutterState)).index_to_offset i = none := by
    obtain ⟨idx, hidx, hnd⟩ := hmiss
    refine ⟨idx, hidx, ?_⟩
    rcases hoff : s.index_to_offset idx with _ | off
    · rfl
    · exfalso
      obtain ⟨hsc, hdef, hsz1, hbnd, -⟩ := hinv.sound idx off hoff
      exact hnd ⟨off, hsc, by omega, hdef⟩
  rcases er with e2 | e2 | e2 | e2 | e2 | e2 <;>
    dsimp only [EventRecord.eventOf] at hts hmiss2 ⊢
  case other => simp [EventRecord.isRecognized] at hrec
  all_goals (
    obtain ⟨err, herr⟩ := @process_event_missing_err input sts ets e2
      { s with pos := s.pos + headerSize (wordAt input s.pos) * 8 }
      hts (fun i => hinv.wEmpty i) hmiss2
    rw [herr]
    exact ⟨err, rfl⟩)

/-- Reaching a recognized in-window event at scan position `pe` from any
earlier loop state: the run, if it completes, contains the event record
verbatim, preceded by a backfilled copy of the last earlier definition of
each of its indexed references. -/
theorem cutLoop_event_reach {input : List Nat} {sts ets : Nat} {pe : Nat}
    {er : EventRecord} (hpe : ScanPos input pe)
    (hde : decodeEventWords (wordsOf (recordBytesAt input pe)) = some er)
    (hrec : er.isRecognized = true)
    (hts1 : sts ≤ er.eventOf.timestamp) (hts2 : er.eventOf.timestamp ≤ ets)
    (hrefs : ∀ idx ∈ er.eventOf.refIdxs, DefinedBefore input pe idx) :
    ∀ {fuel : Nat} {s : CutterState} {out : List (List Nat)},
    ScanInv input s → s.pos ≤ pe →
    cutLoop input sts ets fuel s = .ok out →
    ∃ pre post, out = pre ++ [recordBytesAt input pe] ++ post ∧
      ∀ idx ∈ er.eventOf.refIdxs, ∃ off, IsLastDefBefore input pe idx off ∧
        1 ≤ headerSize (wordAt input off) ∧
        backfillBytesAt input off ∈ pre
  | 0, s, out, hinv, hle, h => by simp [cutLoop] at h
  | fuel + 1, s, out, hinv, hle, h => by
    obtain ⟨hsz, hblen, htag, -⟩ := decode_recordBytesAt_facts hde
    rcases Nat.lt_or_ge s.pos pe with hlt | hge
    · -- not there yet: one step forward
      unfold cutLoop at h
      rcases hstep : cutStep input sts ets s with e | res
      · rw [hstep] at h; simp at h
      · rw [hstep] at h
        rcases res with _ | s'
        · exfalso
          rcases cutStep_ok_cases hstep with ⟨-, hbrk⟩ | ⟨s'', hs, -, -⟩
          · omega
          · simp at hs
        · dsimp only at h
          have hlen : s.pos + 8 ≤ input.length := by
            rcases cutStep_ok_cases hstep with ⟨hc, -⟩ | ⟨s'', hs, hl, -⟩
            · simp at hc
            · exact hl
          have hnext : s'.pos ≤ pe := by
            rw [cutStep_pos_exact hinv hstep]
            exact scanPos_chain_le (s.pos + pe) s.pos pe (le_refl _)
              hinv.scan hpe hlt hlen
          exact cutLoop_event_reach hpe hde hrec hts1 hts2 hrefs
            (inv_step hinv hstep) hnext h
    · -- s.pos = pe: this step fires the event
      have heq : s.pos = pe := by omega
      subst heq
      unfold cutLoop at h
      rw [cutStep_event_fire hinv hde hrec hts1 hts2 hrefs] at h
      dsimp only at h
      obtain ⟨t, ht⟩ := cutLoop_output_mono h
      dsimp only at ht
      refine ⟨s.output ++
        (er.eventOf.refIdxs.map (refChunk input s.index_to_offset)), t, ?_, ?_⟩
      · rw [ht]
      · intro idx hidx
        obtain ⟨q, hq, hqlt, hqdef⟩ := hrefs idx hidx
        have hsome := hinv.complete idx q hq hqlt hqdef
        obtain ⟨off, hoff⟩ := Option.isSome_iff_exists.1 hsome
        obtain ⟨hsc, hdef, hsz1, hbnd, hlast⟩ := hinv.sound idx off hoff
        refine ⟨off, ⟨hsc, by omega, hdef, hlast⟩, hsz1, ?_⟩
        refine List.mem_append.2 (Or.inr ?_)
        refine List.mem_map.2 ⟨idx, hidx, ?_⟩
        rw [refChunk, hoff]

/-- A recognized in-window event at scan position `pe` with a reference
never defined earlier forces the run to abort. -/
theorem cutLoop_event_abort {input : List Nat} {sts ets : Nat} {pe : Nat}
    {er : EventRecord} (hpe : ScanPos input pe)
    (hde : decodeEventWords (wordsOf (recordBytesAt input pe)) = some er)
    (hrec : er.isRecognized = true)
    (hts1 : sts ≤ er.eventOf.timestamp) (hts2 : er.eventOf.timestamp ≤ ets)
    (hmiss : ∃ idx ∈ er.eventOf.refIdxs, ¬ DefinedBefore input pe idx) :
    ∀ {fuel : Nat} {s : CutterState} {out : List (List Nat)},
    ScanInv input s → s.pos ≤ pe →
    cutLoop input sts ets fuel s ≠ .ok out
  | 0, s, out, hinv, hle => by simp [cutLoop]
  | fuel + 1, s, out, hinv, hle => by
    intro h
    obtain ⟨hsz, hblen, htag, -⟩ := decode_recordBytesAt_facts hde
    rcases Nat.lt_or_ge s.pos pe with hlt | hge
    · unfold cutLoop at h
      rcases hstep : cutStep input sts ets s with e | res
      · rw [hstep] at h; simp at h
      · rw [hstep] at h
        rcases res with _ | s'
        · rcases cutStep_ok_cases hstep with ⟨-, hbrk⟩ | ⟨s'', hs, -, -⟩
          · omega
          · simp at hs
        · dsimp only at h
          have hlen : s.pos + 8 ≤ input.length := by
            rcases cutStep_ok_cases hstep with ⟨hc, -⟩ | ⟨s'', hs, hl, -⟩
            · simp at hc
            · exact hl
          have hnext : s'.pos ≤ pe := by
            rw [cutStep_pos_exact hinv hstep]
            exact scanPos_chain_le (s.pos + pe) s.pos pe (le_refl _)
              hinv.scan hpe hlt hlen
          exact cutLoop_event_abort hpe hde hrec hts1 hts2 hmiss
            (inv_step hinv hstep) hnext h
    · have heq : s.pos = pe := by omega
      subst heq
      obtain ⟨err, herr⟩ := cutStep_event_missing hinv hde hrec hts1 hts2 hmiss
      unfold cutLoop at h
      rw [herr] at h
      simp at h

deriving instance DecidableEq for Except

/-- Whether an `Except` result is a success. -/
def isOkResult : Except CutError CutterState → Bool
  | .ok _ => true
  | .error _ => false

/-! ## Claim theorems -/

/-- C10: for an event of a recognized timestamped subtype whose timestamp
lies outside `[start_ts, end_ts]`, `process_event` writes nothing to the
output and leaves the emitted set and the offset index unchanged — the
returned state is exactly the input state, and the event is rejected.
The window test runs before any backfill, so an excluded event can never
cause a String record to be emitted. -/
theorem c10_excluded_event_no_effect {input : List Nat} {sts ets : Nat}
    {e : Event} {s : CutterState}
    (h : e.timestamp < sts ∨ ets < e.timestamp) :
    process_event input sts ets e s = .ok (s, false) :=
  process_event_outside h

def c10w_event : Event :=
  { timestamp := 5, name := .refIdx 1, category := .refIdx 2, arguments := [] }

def c10w_state : CutterState := initState

theorem c10_excluded_event_no_effect_witness :
    (c10w_event.timestamp < 10 ∨ 20 < c10w_event.timestamp) ∧
    process_event [] 10 20 c10w_event c10w_state = .ok (c10w_state, false) := by
  have h : c10w_event.timestamp < 10 ∨ 20 < c10w_event.timestamp := by
    unfold c10w_event
    exact Or.inl (by norm_num)
  exact ⟨h, c10_excluded_event_no_effect h⟩

/-- C9: a decodable Event record whose subtype is not one of the five
recognized timestamped subtypes is written to the output unconditionally
— the step succeeds and appends the record bytes with no timestamp test
against the window (no hypothesis mentions the timestamp or the
window). -/
theorem c9_unrecognized_subtype_always_written {input : List Nat}
    {sts ets : Nat} {s : CutterState} {e : Event}
    (hde : decodeEventWords (wordsOf (recordBytesAt input s.pos)) =
      some (EventRecord.other e)) :
    cutStep input sts ets s = .ok (some { s with
      pos := s.pos + headerSize (wordAt input s.pos) * 8,
      output := s.output ++ [recordBytesAt input s.pos] }) := by
  obtain ⟨hsz, hblen, htag, hrw⟩ := decode_recordBytesAt_facts hde
  unfold cutStep
  rw [if_neg (by omega : ¬ input.length < s.pos + 8)]
  dsimp only
  have hwf : wordOfBytes ((input.drop s.pos).take 8) = wordAt input s.pos := rfl
  rw [hwf, record_type_of_tag4 htag]
  dsimp only
  rw [readExact_ok_of (by omega), ← hrw]
  dsimp only
  rw [hde]
  dsimp only
  rw [if_pos rfl]

def c9w_input : List Nat := bytesOfWord (eventHeaderWord 2 5 0 1 0 0) ++
  bytesOfWord 0

theorem c9_unrecognized_subtype_always_written_witness :
    cutStep c9w_input 10 20 initState = .ok (some { initState with
      pos := 0 + headerSize (wordAt c9w_input 0) * 8,
      output := initState.output ++ [recordBytesAt c9w_input 0] }) :=
  c9_unrecognized_subtype_always_written
    (e := { timestamp := 0, name := .empty, category := .empty,
            arguments := [] })
    (by decide)

/-- C5: a backfill resolution that completes without error leaves the
input cursor exactly where it started, however far backward the target
offset lay.  The hypothesis — that a cached offset consulted for this
index points at a header with a nonzero size field — holds in every
reachable state (`ScanInv.sound`); the scan aborts before ever caching a
zero-size String header beyond the current step. -/
theorem c5_backfill_restores_position {input : List Nat} {s : CutterState}
    {idx : Nat} {s' : CutterState}
    (hsz : ∀ off, s.index_to_offset idx = some off →
      1 ≤ headerSize (wordAt input off))
    (h : maybe_write_str_ref input s idx = .ok s') :
    s'.pos = s.pos :=
  maybe_write_pos hsz h

def c5w_input : List Nat := bytesOfWord (stringHeaderWord 1 1) ++
  bytesOfWord (eventHeaderWord 2 0 0 1 0 1) ++ bytesOfWord 5

def c5w_state : CutterState :=
  { pos := 24, output := [],
    index_to_offset := fun j => if j = 1 then some 0 else none,
    written_indexes := fun _ => false }

theorem c5_backfill_restores_position_witness :
    ∃ s', maybe_write_str_ref c5w_input c5w_state 1 = .ok s' ∧
      s'.pos = c5w_state.pos := by
  have hsz : ∀ off, c5w_state.index_to_offset 1 = some off →
      1 ≤ headerSize (wordAt c5w_input off) := by
    intro off hoff
    have hoff0 : off = 0 := by
      simp [c5w_state] at hoff
      omega
    subst hoff0
    decide
  have hok : isOkResult (maybe_write_str_ref c5w_input c5w_state 1) = true := by
    decide
  rcases hres : maybe_write_str_ref c5w_input c5w_state 1 with e | s'
  · rw [hres] at hok
    simp [isOkResult] at hok
  · exact ⟨s', rfl, c5_backfill_restores_position hsz hres⟩

def c3_input : List Nat := [0, 0, 0, 0]

/-- C3: a short header read of 1–7 bytes does NOT abort the run — the
code breaks out of the loop exactly as it does for a clean zero-byte
end-of-stream, and the run reports success.  The `read_exact` error
handler in `Cutter::cut` treats every `UnexpectedEof` as a clean break
(and silently ignores every other error kind), so the claimed fatal
error on a 1–7-byte truncated header never happens: on the 4-byte input
the run succeeds with empty output. -/
theorem c3_truncated_header_clean_success :
    c3_input ≠ [] ∧ c3_input.length < 8 ∧ cut c3_input 0 10 = .ok [] := by
  decide

def c1_input : List Nat := bytesOfWord (stringHeaderWord 1 1) ++
  bytesOfWord (eventHeaderWord 2 0 0 1 1 1) ++ bytesOfWord 5

def c1_string_chunk : List Nat := bytesOfWord (stringHeaderWord 1 1)

def c1_event_chunk : List Nat := bytesOfWord (eventHeaderWord 2 0 0 1 1 1) ++
  bytesOfWord 5

/-- C1: the String record for index 1 is emitted TWICE, not once, on an
input with a single surviving event that references index 1 via both its
name and its category.  `maybe_write_str_ref` checks `written_indexes`
but no code path ever inserts into it, so the emitted set stays empty
and every reference re-copies its String record.  The event is still
positioned after the copies, but the claimed exactly-once property fails
on the code. -/
theorem c1_string_record_duplicated :
    cut c1_input 0 10 =
      .ok [c1_string_chunk, c1_string_chunk, c1_event_chunk] ∧
    ([c1_string_chunk, c1_string_chunk, c1_event_chunk].countP
      (fun c => decide (IsStringChunkFor c 1))) = 2 := by
  decide

/-- C6: passthrough fidelity — the subsequence of output chunks that are
neither String nor Event records equals, byte for byte and in order, the
subsequence of such records in the input's scan decomposition.  The
right-hand side does not mention the window, so the property is
independent of `start_ts`/`end_ts`. -/
theorem c6_passthrough_fidelity {input : List Nat} {sts ets : Nat}
    {out : List (List Nat)} (h : cut input sts ets = .ok out) :
    out.filter isOtherChunk = (scanRecords input).filter isOtherChunk := by
  have hres := cutLoop_other_filter (inv_init input) h
  simpa [initState, scanRecords] using hres

def c6w_input : List Nat := bytesOfWord (16 * 2) ++ bytesOfWord 99 ++
  bytesOfWord (stringHeaderWord 1 1) ++
  bytesOfWord (eventHeaderWord 2 0 0 1 0 1) ++ bytesOfWord 5

def c6w_out : List (List Nat) := [bytesOfWord (16 * 2) ++ bytesOfWord 99,
  bytesOfWord (stringHeaderWord 1 1),
  bytesOfWord (eventHeaderWord 2 0 0 1 0 1) ++ bytesOfWord 5]

theorem c6_passthrough_fidelity_witness :
    c6w_out.filter isOtherChunk = (scanRecords c6w_input).filter isOtherChunk :=
  @c6_passthrough_fidelity c6w_input 0 10 c6w_out (by decide)

def c2x_input : List Nat := bytesOfWord (eventHeaderWord 2 5 0 1 0 0) ++
  bytesOfWord 0

def c2x_chunk : List Nat := bytesOfWord (eventHeaderWord 2 5 0 1 0 0) ++
  bytesOfWord 0

/-- C2 counterexample: the claim as stated fails at a concrete input —
an Event record of an unrecognized subtype (here subtype 5) with
timestamp 0 is written to the output of a successful run with window
[10, 20], so not every output event carries an in-window timestamp. -/
theorem c2_window_correctness_counterexample :
    ¬ (∀ (input : List Nat) (sts ets : Nat) (out : List (List Nat)),
        cut input sts ets = .ok out →
        ((∀ c ∈ out, ∀ er, decodeEventWords (wordsOf c) = some er →
            sts ≤ er.eventOf.timestamp ∧ er.eventOf.timestamp ≤ ets) ∧
         (∀ pe er, ScanPos input pe →
            decodeEventWords (wordsOf (recordBytesAt input pe)) = some er →
            er.isRecognized = true →
            sts ≤ er.eventOf.timestamp → er.eventOf.timestamp ≤ ets →
            (∀ idx ∈ er.eventOf.refIdxs, DefinedBefore input pe idx) →
            recordBytesAt input pe ∈ out))) := by
  intro hclaim
  have hrun : cut c2x_input 10 20 = .ok [c2x_chunk] := by decide
  have h1 := (hclaim c2x_input 10 20 [c2x_chunk] hrun).1 c2x_chunk (by simp)
    (EventRecord.other ⟨0, .empty, .empty, []⟩) (by decide)
  exact absurd h1.1 (by decide)

/-- C2 amended: window correctness restricted to the five recognized
timestamped subtypes (an unrecognized-subtype event is written without
any timestamp check, which the counterexample exhibits).  For a
successful run: every output chunk that decodes as a recognized Event
record has its timestamp inside [start_ts, end_ts]; and conversely every
record of the input scan that decodes as a recognized Event record with
in-window timestamp, all of whose indexed string references are defined
by earlier String records of the scan, appears verbatim in the output. -/
theorem c2_amended_window_correctness {input : List Nat} {sts ets : Nat}
    {out : List (List Nat)} (h : cut input sts ets = .ok out) :
    (∀ c ∈ out, ∀ er, decodeEventWords (wordsOf c) = some er →
      er.isRecognized = true →
      sts ≤ er.eventOf.timestamp ∧ er.eventOf.timestamp ≤ ets) ∧
    (∀ pe er, ScanPos input pe →
      decodeEventWords (wordsOf (recordBytesAt input pe)) = some er →
      er.isRecognized = true →
      sts ≤ er.eventOf.timestamp → er.eventOf.timestamp ≤ ets →
      (∀ idx ∈ er.eventOf.refIdxs, DefinedBefore input pe idx) →
      recordBytesAt input pe ∈ out) := by
  constructor
  · intro c hc er hde hrec
    exact cutLoop_window (inv_init input)
      (fun c hc => absurd hc (by simp [initState])) h c hc er hde hrec
  · intro pe er hpe hde hrec hts1 hts2 hrefs
    obtain ⟨pre, post, hout, -⟩ := cutLoop_event_reach hpe hde hrec hts1 hts2
      hrefs (inv_init input) (by simp [initState]) h
    rw [hout]
    simp

def c2w_input : List Nat := bytesOfWord (stringHeaderWord 1 1) ++
  bytesOfWord (eventHeaderWord 2 0 0 1 0 1) ++ bytesOfWord 5

def c2w_out : List (List Nat) := [bytesOfWord (stringHeaderWord 1 1),
  bytesOfWord (eventHeaderWord 2 0 0 1 0 1) ++ bytesOfWord 5]

theorem c2_amended_window_correctness_witness :
    recordBytesAt c2w_input 8 ∈ c2w_out := by
  have h := @c2_amended_window_correctness c2w_input 0 10 c2w_out (by decide)
  refine h.2 8 (EventRecord.instant ⟨5, .refIdx 1, .empty, []⟩) ?_ (by decide)
    (by decide) (by decide) (by decide) ?_
  · have h8 := @ScanPos.step c2w_input 0 ScanPos.zero (by decide)
    have hadv : (0 : Nat) + advanceOf (wordAt c2w_input 0) = 8 := by decide
    rw [hadv] at h8
    exact h8
  · intro idx hidx
    have hlist : (EventRecord.instant
        (⟨5, .refIdx 1, .empty, []⟩ : Event)).eventOf.refIdxs = [1] := by decide
    rw [hlist] at hidx
    simp at hidx
    subst hidx
    exact ⟨0, ScanPos.zero, by decide, by decide⟩

def c4x_input : List Nat := bytesOfWord (eventHeaderWord 2 5 0 1 0 3) ++
  bytesOfWord 5

def c4x_chunk : List Nat := bytesOfWord (eventHeaderWord 2 5 0 1 0 3) ++
  bytesOfWord 5

/-- C4 counterexample: the claim as stated fails at a concrete input —
an in-window event of an unrecognized subtype referencing the undefined
string index 3 does not abort the run; the event is written and the run
completes successfully, because the `_ => true` arm skips backfilling
entirely. -/
theorem c4_dangling_reference_counterexample :
    ¬ (∀ (input : List Nat) (sts ets pe : Nat) (er : EventRecord),
        ScanPos input pe →
        decodeEventWords (wordsOf (recordBytesAt input pe)) = some er →
        sts ≤ er.eventOf.timestamp → er.eventOf.timestamp ≤ ets →
        (∃ idx ∈ er.eventOf.refIdxs, ¬ DefinedBefore input pe idx) →
        ∀ out, cut input sts ets ≠ .ok out) := by
  intro hclaim
  refine hclaim c4x_input 0 10 0
    (EventRecord.other ⟨5, .refIdx 3, .empty, []⟩) ScanPos.zero (by decide)
    (by decide) (by decide) ⟨3, by decide, ?_⟩ [c4x_chunk] (by decide)
  rintro ⟨q, hq, hlt, -⟩
  omega

/-- C4 amended: restricted to the five recognized timestamped subtypes.
If the scan decomposition contains a recognized in-window event one of
whose indexed string references has no defining String record earlier in
the scan, then the run aborts with an error (not the artificial fuel
bound) — it never completes successfully while silently omitting or
mis-resolving that reference. -/
theorem c4_amended_dangling_reference_aborts {input : List Nat}
    {sts ets pe : Nat} {er : EventRecord}
    (hpe : ScanPos input pe)
    (hde : decodeEventWords (wordsOf (recordBytesAt input pe)) = some er)
    (hrec : er.isRecognized = true)
    (hts1 : sts ≤ er.eventOf.timestamp) (hts2 : er.eventOf.timestamp ≤ ets)
    (hmiss : ∃ idx ∈ er.eventOf.refIdxs, ¬ DefinedBefore input pe idx) :
    ∃ err, cut input sts ets = .error err ∧ err ≠ CutError.outOfFuel := by
  rcases hres : cut input sts ets with err | out
  · refine ⟨err, rfl, ?_⟩
    intro hcon
    subst hcon
    exact cut_not_fuel input sts ets hres
  · exact absurd hres (cutLoop_event_abort hpe hde hrec hts1 hts2 hmiss
      (inv_init input) (by simp [initState]))

def c4w_input : List Nat := bytesOfWord (eventHeaderWord 2 0 0 1 0 3) ++
  bytesOfWord 5

theorem c4_amended_dangling_reference_aborts_witness :
    ∃ err, cut c4w_input 0 10 = .error err ∧ err ≠ CutError.outOfFuel := by
  refine @c4_amended_dangling_reference_aborts c4w_input 0 10 0
    (EventRecord.instant ⟨5, .refIdx 3, .empty, []⟩) ScanPos.zero
    (by decide) (by decide) (by decide) (by decide) ⟨3, by decide, ?_⟩
  rintro ⟨q, hq, hlt, -⟩
  omega

def c7x_input : List Nat := bytesOfWord (stringHeaderWord 1 1) ++
  bytesOfWord (eventHeaderWord 2 5 0 1 0 1) ++ bytesOfWord 5

def c7x_chunk : List Nat := bytesOfWord (eventHeaderWord 2 5 0 1 0 1) ++
  bytesOfWord 5

/-- C7 counterexample: the claim as stated fails at a concrete input —
an included event of an unrecognized subtype referencing string index 1
(defined earlier in the input) is written to the output with no String
record before it: the `_ => true` arm writes the event without
backfilling any of its references. -/
theorem c7_backfill_before_event_counterexample :
    ¬ (∀ (input : List Nat) (sts ets : Nat) (out pre post : List (List Nat))
        (c : List Nat) (er : EventRecord),
        cut input sts ets = .ok out → out = pre ++ c :: post →
        decodeEventWords (wordsOf c) = some er →
        ∀ idx ∈ er.eventOf.refIdxs, ∃ d ∈ pre, IsStringChunkFor d idx) := by
  intro hclaim
  have h := hclaim c7x_input 0 10 [c7x_chunk] [] [] c7x_chunk
    (EventRecord.other ⟨5, .refIdx 1, .empty, []⟩) (by decide) rfl (by decide)
    1 (by decide)
  obtain ⟨d, hd, -⟩ := h
  simp at hd

/-- C7 amended: restricted to the five recognized timestamped subtypes.
For a successful run, every included recognized event of the scan
decomposition appears verbatim in the output — its exact input bytes —
and for each of its indexed string references a String record chunk
carrying that index occurs strictly before it in the output. -/
theorem c7_amended_verbatim_after_backfill {input : List Nat}
    {sts ets pe : Nat} {er : EventRecord} {out : List (List Nat)}
    (h : cut input sts ets = .ok out)
    (hpe : ScanPos input pe)
    (hde : decodeEventWords (wordsOf (recordBytesAt input pe)) = some er)
    (hrec : er.isRecognized = true)
    (hts1 : sts ≤ er.eventOf.timestamp) (hts2 : er.eventOf.timestamp ≤ ets)
    (hrefs : ∀ idx ∈ er.eventOf.refIdxs, DefinedBefore input pe idx) :
    ∃ pre post, out = pre ++ [recordBytesAt input pe] ++ post ∧
      ∀ idx ∈ er.eventOf.refIdxs, ∃ d ∈ pre, IsStringChunkFor d idx := by
  obtain ⟨pre, post, hout, hback⟩ := cutLoop_event_reach hpe hde hrec hts1 hts2
    hrefs (inv_init input) (by simp [initState]) h
  refine ⟨pre, post, hout, ?_⟩
  intro idx hidx
  obtain ⟨off, hlast, hsz1, hmem⟩ := hback idx hidx
  have hcw : chunkWord (backfillBytesAt input off) = wordAt input off := by
    unfold backfillBytesAt
    exact chunkWord_eq_wordAt (by omega)
  refine ⟨backfillBytesAt input off, hmem, ?_⟩
  rw [IsStringChunkFor, hcw]
  exact ⟨hlast.2.2.1.2.1, hlast.2.2.1.2.2⟩

def c7w_input : List Nat := bytesOfWord (stringHeaderWord 1 1) ++
  bytesOfWord (eventHeaderWord 2 0 0 1 0 1) ++ bytesOfWord 5

def c7w_out : List (List Nat) := [bytesOfWord (stringHeaderWord 1 1),
  bytesOfWord (eventHeaderWord 2 0 0 1 0 1) ++ bytesOfWord 5]

theorem c7_amended_verbatim_after_backfill_witness :
    ∃ pre post, c7w_out = pre ++ [recordBytesAt c7w_input 8] ++ post ∧
      ∀ idx ∈ (EventRecord.instant
          (⟨5, .refIdx 1, .empty, []⟩ : Event)).eventOf.refIdxs,
        ∃ d ∈ pre, IsStringChunkFor d idx := by
  refine @c7_amended_verbatim_after_backfill c7w_input 0 10 8
    (EventRecord.instant ⟨5, .refIdx 1, .empty, []⟩) c7w_out (by decide)
    ?_ (by decide) (by decide) (by decide) (by decide) ?_
  · have h8 := @ScanPos.step c7w_input 0 ScanPos.zero (by decide)
    have hadv : (0 : Nat) + advanceOf (wordAt c7w_input 0) = 8 := by decide
    rw [hadv] at h8
    exact h8
  · intro idx hidx
    have hlist : (EventRecord.instant
        (⟨5, .refIdx 1, .empty, []⟩ : Event)).eventOf.refIdxs = [1] := by decide
    rw [hlist] at hidx
    simp at hidx
    subst hidx
    exact ⟨0, ScanPos.zero, by decide, by decide⟩

/-- C8: last definition wins.  If at least two String records define the
same index before a recognized in-window surviving event references it,
the backfilled String record bytes appearing in the output are exactly
the bytes of the last definition preceding the referencing event. -/
theorem c8_last_definition_wins {input : List Nat} {sts ets pe : Nat}
    {er : EventRecord} {out : List (List Nat)} {idx off1 off2 : Nat}
    (h : cut input sts ets = .ok out)
    (hpe : ScanPos input pe)
    (hde : decodeEventWords (wordsOf (recordBytesAt input pe)) = some er)
    (hrec : er.isRecognized = true)
    (hts1 : sts ≤ er.eventOf.timestamp) (hts2 : er.eventOf.timestamp ≤ ets)
    (hrefs : ∀ i ∈ er.eventOf.refIdxs, DefinedBefore input pe i)
    (hidx : idx ∈ er.eventOf.refIdxs)
    (_hfirst : ScanPos input off1 ∧ off1 < pe ∧ DefinesAt input off1 idx)
    (hlast : IsLastDefBefore input pe idx off2)
    (_hne : off1 ≠ off2) :
    backfillBytesAt input off2 ∈ out := by
  obtain ⟨pre, post, hout, hback⟩ := cutLoop_event_reach hpe hde hrec hts1 hts2
    hrefs (inv_init input) (by simp [initState]) h
  obtain ⟨off, hoffl, -, hmem⟩ := hback idx hidx
  have heq : off = off2 :=
    le_antisymm (hlast.2.2.2 off hoffl.1 hoffl.2.1 hoffl.2.2.1)
      (hoffl.2.2.2 off2 hlast.1 hlast.2.1 hlast.2.2.1)
  subst heq
  rw [hout]
  simp only [List.mem_append]
  exact Or.inl (Or.inl hmem)

def c8w_input : List Nat := bytesOfWord (stringHeaderWord 1 1) ++
  bytesOfWord (stringHeaderWord 2 1) ++ bytesOfWord 77 ++
  bytesOfWord (eventHeaderWord 2 0 0 1 0 1) ++ bytesOfWord 5

theorem c8_last_definition_wins_witness :
    backfillBytesAt c8w_input 8 ∈
      [bytesOfWord (stringHeaderWord 2 1) ++ bytesOfWord 77,
       bytesOfWord (eventHeaderWord 2 0 0 1 0 1) ++ bytesOfWord 5] := by
  have h0 : ScanPos c8w_input 0 := ScanPos.zero
  have h8 : ScanPos c8w_input 8 := by
    have hs := @ScanPos.step c8w_input 0 ScanPos.zero (by decide)
    have hadv : (0 : Nat) + advanceOf (wordAt c8w_input 0) = 8 := by decide
    rw [hadv] at hs
    exact hs
  have hlast24 : ∀ q, ScanPos c8w_input q → q < 24 →
      DefinesAt c8w_input q 1 → q ≤ 8 := by
    intro q hq hlt hdef
    have hadv8 : (8 : Nat) + advanceOf (wordAt c8w_input 8) = 24 := by decide
    refine scanPos_le_of_lt_next h8 hq (by decide) ?_
    omega
  refine @c8_last_definition_wins c8w_input 0 10 24
    (EventRecord.instant ⟨5, .refIdx 1, .empty, []⟩)
    [bytesOfWord (stringHeaderWord 2 1) ++ bytesOfWord 77,
     bytesOfWord (eventHeaderWord 2 0 0 1 0 1) ++ bytesOfWord 5] 1 0 8
    (by decide) ?_ (by decide) (by decide) (by decide)
    (by decide) ?_ ?_ ⟨h0, by decide, by decide⟩ ⟨h8, by decide, by decide,
      hlast24⟩ (by decide)
  · have hs8 := @ScanPos.step c8w_input 8 h8 (by decide)
    have hadv : (8 : Nat) + advanceOf (wordAt c8w_input 8) = 24 := by decide
    rw [hadv] at hs8
    exact hs8
  · intro i hi
    have hlist : (EventRecord.instant
        (⟨5, .refIdx 1, .empty, []⟩ : Event)).eventOf.refIdxs = [1] := by decide
    rw [hlist] at hi
    simp at hi
    subst hi
    exact ⟨8, h8, by decide, by decide⟩
  · have hlist : (EventRecord.instant
        (⟨5, .refIdx 1, .empty, []⟩ : Event)).eventOf.refIdxs = [1] := by decide
    rw [hlist]
    simp
